import Mathlib

/-!
# Verification of the rustmatch template-matching engine

A shallow embedding of the matching engine of `src/lib.rs` (integral image,
template profile, NCC primitive, full-search, region-search, downsampler,
pyramid strategy and multi-match strategy).  The `f64` arithmetic of the
source is modelled exactly: all moment computations are carried out in `ℚ`,
and scores (which involve a square root) live in `ℝ`.  Machine indices are
`ℕ`; Rust's `saturating_sub` is Nat subtraction, and `usize::next_power_of_two`
is modelled by the fuel-based `nextPow2` below.
-/

namespace RustMatch

/-- Match result containing position and confidence score (`MatchResult`). -/
structure MatchResult where
  x : ℕ
  y : ℕ
  confidence : ℝ

/-- Row-major pixel read `data[y * w + x]` (out-of-range reads default to 0;
claim C9 shows the engine never performs them on well-formed inputs). -/
def px (data : List ℚ) (w y x : ℕ) : ℚ := data.getD (y * w + x) 0

/-- One row of the integral-image recurrence of `IntegralImage::new`:
`sum[y+1][x+1] = v + sum[y][x+1] + sum[y+1][x] - sum[y][x]`, column 0 zero. -/
def intRow (prev row : ℕ → ℚ) : ℕ → ℚ
  | 0 => 0
  | x + 1 => row x + prev (x + 1) + intRow prev row x - prev x

/-- The integral-image table built row by row (row 0 is the zero padding row),
indexed `[y][x]`; cell values agree with the loop of `IntegralImage::new`. -/
def intRows (d : ℕ → ℕ → ℚ) : ℕ → ℕ → ℚ
  | 0 => fun _ => 0
  | y + 1 => intRow (intRows d y) (d y)

/-- Struct `IntegralImage`: running sums and running squared sums. -/
structure IntegralImage where
  sum : ℕ → ℕ → ℚ
  sq_sum : ℕ → ℕ → ℚ

/-- Constructor `IntegralImage::new(data, w, h)`. -/
def IntegralImage.new (data : List ℚ) (w : ℕ) (_h : ℕ) : IntegralImage :=
  { sum := intRows fun j i => px data w j i
    sq_sum := intRows fun j i => px data w j i * px data w j i }

/-- Query `IntegralImage::get_stats(x, y, w, h)`: four corner reads. -/
def IntegralImage.get_stats (t : IntegralImage) (x y w h : ℕ) : ℚ × ℚ :=
  (t.sum (y + h) (x + w) - t.sum y (x + w) - t.sum (y + h) x + t.sum y x,
   t.sq_sum (y + h) (x + w) - t.sq_sum y (x + w) - t.sq_sum (y + h) x + t.sq_sum y x)

/-- Template mean `sum / n` with `n = w * h` (from `Template::new`). -/
def bufMean (data : List ℚ) (w h : ℕ) : ℚ := data.sum / ((w * h : ℕ) : ℚ)

/-- Sum of squares `data.iter().map(|v| v * v).sum()` (from `Template::new`). -/
def bufSqSum (data : List ℚ) : ℚ := (data.map fun v => v * v).sum

/-- Template variance `sq_sum / n - mean * mean` (from `Template::new`). -/
def bufVar (data : List ℚ) (w h : ℕ) : ℚ :=
  bufSqSum data / ((w * h : ℕ) : ℚ) - bufMean data w h * bufMean data w h

/-- Struct `Template`: mean-centered pixels plus the precomputed `1 / (std * n)`. -/
structure Template where
  normalized : List ℚ
  width : ℕ
  height : ℕ
  inv_std_n : ℝ

/-- Constructor `Template::new(data, w, h)`; `std = var.sqrt().max(1e-10)`. -/
noncomputable def Template.new (data : List ℚ) (w h : ℕ) : Template :=
  { normalized := data.map fun v => v - bufMean data w h
    width := w
    height := h
    inv_std_n := 1 / (max (Real.sqrt ((bufVar data w h : ℚ) : ℝ)) (1 / 10 ^ 10) * ((w * h : ℕ) : ℝ)) }

/-- Window mean `s_sum / n` of `compute_ncc`. -/
def sMean (t : IntegralImage) (tpl : Template) (x y : ℕ) : ℚ :=
  (t.get_stats x y tpl.width tpl.height).1 / ((tpl.width * tpl.height : ℕ) : ℚ)

/-- Window variance `s_sq_sum / n - s_mean * s_mean` of `compute_ncc`. -/
def sVar (t : IntegralImage) (tpl : Template) (x y : ℕ) : ℚ :=
  (t.get_stats x y tpl.width tpl.height).2 / ((tpl.width * tpl.height : ℕ) : ℚ)
    - sMean t tpl x y * sMean t tpl x y

/-- The cross-correlation accumulation loop of `compute_ncc`:
`cross += (src[(y+ty)*src_width + x+tx] - s_mean) * normalized[ty*tw + tx]`. -/
def cross (src : List ℚ) (src_width : ℕ) (t : IntegralImage) (tpl : Template) (x y : ℕ) : ℚ :=
  ∑ ty ∈ Finset.range tpl.height, ∑ tx ∈ Finset.range tpl.width,
    (px src src_width (y + ty) (x + tx) - sMean t tpl x y)
      * tpl.normalized.getD (ty * tpl.width + tx) 0

/-- The NCC primitive `compute_ncc`: returns 0 for an essentially flat window (`s_var < 1.0`),
otherwise `cross * inv_std_n / s_std`. -/
noncomputable def compute_ncc (src : List ℚ) (src_width : ℕ) (t : IntegralImage)
    (tpl : Template) (x y : ℕ) : ℝ :=
  if sVar t tpl x y < 1 then 0
  else ((cross src src_width t tpl x y : ℚ) : ℝ) * tpl.inv_std_n
        / Real.sqrt ((sVar t tpl x y : ℚ) : ℝ)

/-- The running-best update loop shared by the search strategies:
`if score > best.2 { best = (x, y, score) }` over a list of alignments. -/
noncomputable def bestFold (score : ℕ → ℕ → ℝ) (ps : List (ℕ × ℕ)) (b : ℕ × ℕ × ℝ) : ℕ × ℕ × ℝ :=
  ps.foldl (fun b p => if b.2.2 < score p.1 p.2 then (p.1, p.2, score p.1 p.2) else b) b

/-- The alignments `(0..=end_x).map(|x| (x, y))` of one row of `search_best`. -/
def rowPositions (endX y : ℕ) : List (ℕ × ℕ) := (List.range (endX + 1)).map fun x => (x, y)

/-- The per-row `row_best` of `search_best`, starting from `(0, y, -1.0)`. -/
noncomputable def rowBest (src : List ℚ) (sw : ℕ) (t : IntegralImage) (tpl : Template)
    (endX y : ℕ) : ℕ × ℕ × ℝ :=
  bestFold (compute_ncc src sw t tpl) (rowPositions endX y) (0, y, -1)

/-- The row reduction of `search_best`: `|a, b| if a.2 > b.2 { a } else { b }`,
folded left over the per-row results with identity `(0, 0, -1.0)`. -/
noncomputable def combineFold (rows : List (ℕ × ℕ × ℝ)) (b : ℕ × ℕ × ℝ) : ℕ × ℕ × ℝ :=
  rows.foldl (fun a b => if b.2.2 < a.2.2 then a else b) b

/-- The best alignment found by `search_best`'s row-parallel scan. -/
noncomputable def bestAlignment (src : List ℚ) (sw sh : ℕ) (tpl : Template) : ℕ × ℕ × ℝ :=
  combineFold
    ((List.range (sh - tpl.height + 1)).map fun y =>
      rowBest src sw (IntegralImage.new src sw sh) tpl (sw - tpl.width) y)
    (0, 0, -1)

/-- Full search `search_best`: evaluates every alignment, returns the best alignment if `>= threshold`. -/
noncomputable def search_best (src : List ℚ) (sw sh : ℕ) (tpl : Template)
    (threshold : ℝ) : Option MatchResult :=
  if tpl.width > sw ∨ tpl.height > sh then none
  else if threshold ≤ (bestAlignment src sw sh tpl).2.2 then
    some ⟨(bestAlignment src sw sh tpl).1, (bestAlignment src sw sh tpl).2.1,
          (bestAlignment src sw sh tpl).2.2⟩
  else none

/-- The alignments of `search_region`'s nested loops
`for y in y1..=y2 { for x in x1..=x2 }` in evaluation order. -/
def regionPositions (x1 y1 x2 y2 : ℕ) : List (ℕ × ℕ) :=
  (List.range (y2 + 1 - y1)).flatMap fun j =>
    (List.range (x2 + 1 - x1)).map fun i => (x1 + i, y1 + j)

/-- The running best of `search_region`, starting from `(0, 0, -1.0)`. -/
noncomputable def regionBest (src : List ℚ) (sw sh : ℕ) (tpl : Template)
    (x1 y1 x2 y2 : ℕ) : ℕ × ℕ × ℝ :=
  bestFold (compute_ncc src sw (IntegralImage.new src sw sh) tpl)
    (regionPositions x1 y1 x2 y2) (0, 0, -1)

/-- Region search `search_region`: search within an inclusive rectangle of alignments. -/
noncomputable def search_region (src : List ℚ) (sw sh : ℕ) (tpl : Template)
    (x1 y1 x2 y2 : ℕ) (threshold : ℝ) : Option MatchResult :=
  if threshold ≤ (regionBest src sw sh tpl x1 y1 x2 y2).2.2 then
    some ⟨(regionBest src sw sh tpl x1 y1 x2 y2).1,
          (regionBest src sw sh tpl x1 y1 x2 y2).2.1,
          (regionBest src sw sh tpl x1 y1 x2 y2).2.2⟩
  else none

/-- Block-mean decimation `downsample(src, sw, sh, scale)`: block-mean decimation; returns
`(result, nw, nh)` with `nw = sw / scale`, `nh = sh / scale`. -/
def downsample (src : List ℚ) (sw sh scale : ℕ) : List ℚ × ℕ × ℕ :=
  ((List.range (sh / scale)).flatMap fun y =>
      (List.range (sw / scale)).map fun x =>
        (∑ dy ∈ Finset.range scale, ∑ dx ∈ Finset.range scale,
            px src sw (y * scale + dy) (x * scale + dx)) / ((scale * scale : ℕ) : ℚ),
   sw / scale, sh / scale)

/-- Fuel-based model of `usize::next_power_of_two`: the smallest power of two
that is greater than or equal to the argument (1 for arguments 0 and 1). -/
def nextPow2Aux : ℕ → ℕ → ℕ
  | 0, _ => 1
  | fuel + 1, n => if n ≤ 1 then 1 else 2 * nextPow2Aux fuel ((n + 1) / 2)

/-- Model of `usize::next_power_of_two`. -/
def nextPow2 (n : ℕ) : ℕ := nextPow2Aux n n

/-- The pyramid scale `max_scale.min(8).next_power_of_two().max(1)` with
`max_scale = tw.min(th) / 16` (from `pyramid_match`). -/
def scaleFor (tw th : ℕ) : ℕ := (nextPow2 (min (min tw th / 16) 8)).max 1

/-- The refinement rectangle `(x1, y1, x2, y2)` of `pyramid_match`, from the
coarse match `(cx, cy)` (already in coarse coordinates): `margin = scale * 4`,
`x1 = (cx*scale).saturating_sub(margin)`, `x2 = (cx*scale + margin).min(sw - tw)`,
and similarly for `y`. -/
def refineRect (sw sh tw th scale cx cy : ℕ) : ℕ × ℕ × ℕ × ℕ :=
  (cx * scale - scale * 4, cy * scale - scale * 4,
   min (cx * scale + scale * 4) (sw - tw), min (cy * scale + scale * 4) (sh - th))

/-- The pyramid strategy `pyramid_match`: coarse-to-fine single-best search. -/
noncomputable def pyramid_match (src : List ℚ) (sw sh : ℕ) (tpl_data : List ℚ)
    (tw th : ℕ) (threshold : ℝ) : Option MatchResult :=
  if tw > sw ∨ th > sh then none
  else if 4 ≤ scaleFor tw th then
    match search_best (downsample src sw sh (scaleFor tw th)).1
        (sw / scaleFor tw th) (sh / scaleFor tw th)
        (Template.new (downsample tpl_data tw th (scaleFor tw th)).1
          (tw / scaleFor tw th) (th / scaleFor tw th))
        (threshold * 0.5) with
    | some coarse =>
        search_region src sw sh (Template.new tpl_data tw th)
          (refineRect sw sh tw th (scaleFor tw th) coarse.x coarse.y).1
          (refineRect sw sh tw th (scaleFor tw th) coarse.x coarse.y).2.1
          (refineRect sw sh tw th (scaleFor tw th) coarse.x coarse.y).2.2.1
          (refineRect sw sh tw th (scaleFor tw th) coarse.x coarse.y).2.2.2
          threshold
    | none => none
  else search_best src sw sh (Template.new tpl_data tw th) threshold

/-- The strided alignments of `match_multi`'s candidate sweep (`step = 2`):
`(xi * 2, yi * 2)` for `yi in 0..=end_y/2`, `xi in 0..=end_x/2`, row-major. -/
def sweepPositions (endX endY : ℕ) : List (ℕ × ℕ) :=
  (List.range (endY / 2 + 1)).flatMap fun yi =>
    (List.range (endX / 2 + 1)).map fun xi => (xi * 2, yi * 2)

/-- The candidate collection of `match_multi`: keep strided alignments whose
score is `>= threshold * 0.9`. -/
noncomputable def candidates (src : List ℚ) (sw : ℕ) (t : IntegralImage) (tpl : Template)
    (endX endY : ℕ) (threshold : ℝ) : List (ℕ × ℕ × ℝ) :=
  (sweepPositions endX endY).filterMap fun p =>
    if threshold * 0.9 ≤ compute_ncc src sw t tpl p.1 p.2
    then some (p.1, p.2, compute_ncc src sw t tpl p.1 p.2) else none

/-- The `step x step` block probed when refining candidate `(cx, cy)` in
`match_multi`, clamped to the admissible range (`dy` outer, `dx` inner). -/
def refinePositions (cx cy endX endY : ℕ) : List (ℕ × ℕ) :=
  (List.range 2).flatMap fun dy =>
    (List.range 2).map fun dx => (min (cx + dx) endX, min (cy + dy) endY)

/-- The local refinement of one candidate in `match_multi`, starting from
`(cx, cy, -1.0)`. -/
noncomputable def refineCandidate (src : List ℚ) (sw : ℕ) (t : IntegralImage) (tpl : Template)
    (endX endY : ℕ) (c : ℕ × ℕ × ℝ) : ℕ × ℕ × ℝ :=
  bestFold (compute_ncc src sw t tpl) (refinePositions c.1 c.2.1 endX endY) (c.1, c.2.1, -1)

/-- The overlap test of `match_multi`'s non-maximum suppression:
`dx < tw / 2 && dy < th / 2` with `dx = |r.x - f.x|` as `i32` arithmetic. -/
def overlapsB (tw th : ℕ) (r f : MatchResult) : Bool :=
  decide (((r.x : ℤ) - (f.x : ℤ)).natAbs < tw / 2)
    && decide (((r.y : ℤ) - (f.y : ℤ)).natAbs < th / 2)

/-- The non-maximum-suppression loop of `match_multi`: walk the sorted list,
accept a result if it overlaps no accepted one, and break once
`filtered.len() >= max_count` (checked after pushing). -/
def nmsLoop (tw th max_count : ℕ) : List MatchResult → List MatchResult → List MatchResult
  | [], acc => acc
  | r :: rest, acc =>
    if acc.any (overlapsB tw th r) then nmsLoop tw th max_count rest acc
    else if max_count ≤ acc.length + 1 then acc ++ [r]
    else nmsLoop tw th max_count rest (acc ++ [r])

/-- The refined, thresholded results of `match_multi` before sorting. -/
noncomputable def multiResults (src : List ℚ) (sw : ℕ) (t : IntegralImage) (tpl : Template)
    (endX endY : ℕ) (threshold : ℝ) : List MatchResult :=
  (candidates src sw t tpl endX endY threshold).filterMap fun c =>
    if threshold ≤ (refineCandidate src sw t tpl endX endY c).2.2
    then some ⟨(refineCandidate src sw t tpl endX endY c).1,
               (refineCandidate src sw t tpl endX endY c).2.1,
               (refineCandidate src sw t tpl endX endY c).2.2⟩
    else none

/-- The multi-match strategy `match_multi`: strided sweep, local refinement, sort by confidence
descending (`sort_by(|a, b| b.confidence.partial_cmp(&a.confidence))`),
then non-maximum suppression with top-`max_count` selection. -/
noncomputable def match_multi (src : List ℚ) (sw sh : ℕ) (tpl_data : List ℚ) (tw th : ℕ)
    (threshold : ℝ) (max_count : ℕ) : List MatchResult :=
  if tw > sw ∨ th > sh then []
  else
    nmsLoop tw th max_count
      ((multiResults src sw (IntegralImage.new src sw sh) (Template.new tpl_data tw th)
          (sw - tw) (sh - th) threshold).mergeSort
        fun a b => decide (b.confidence ≤ a.confidence))
      []

/-- Sum of the `tw x th` source window with top-left alignment `(x, y)`. -/
def windowSum (src : List ℚ) (sw x y tw th : ℕ) : ℚ :=
  ∑ j ∈ Finset.range th, ∑ i ∈ Finset.range tw, px src sw (y + j) (x + i)

/-- Sum of squares of the `tw x th` source window at `(x, y)`. -/
def windowSqSum (src : List ℚ) (sw x y tw th : ℕ) : ℚ :=
  ∑ j ∈ Finset.range th, ∑ i ∈ Finset.range tw,
    px src sw (y + j) (x + i) * px src sw (y + j) (x + i)

/-- The separation predicate established by the non-maximum suppression. -/
def separated (tw th : ℕ) (a b : MatchResult) : Prop :=
  tw / 2 ≤ ((a.x : ℤ) - (b.x : ℤ)).natAbs ∨ th / 2 ≤ ((a.y : ℤ) - (b.y : ℤ)).natAbs

/-! ### Concrete example buffers used by the claim theorems -/

/-- A 4x4 near-flat but non-uniform buffer (one bright pixel). -/
def src4 : List ℚ := [1, 0, 0, 0, 0, 0, 0, 0, 0, 0, 0, 0, 0, 0, 0, 0]

/-- A 64x64 buffer of vertical one-pixel stripes with values 0 and 2; its
4x4 block means are all 1, so downsampling by 4 flattens it. -/
def stripes64 : List ℚ := (List.range 4096).map fun k => if k % 2 = 0 then 0 else 2

/-- A 64x64 buffer whose top half is 0 and bottom half is 2; downsampling
by 4 preserves the two bands. -/
def half64 : List ℚ := (List.range 4096).map fun k => if k < 2048 then 0 else 2

/-- A 2x1 buffer with variance exactly 1. -/
def pair21 : List ℚ := [0, 2]

/-- Modelled from the spec (section 4.7, step 1): "Compute `maxScale = min(w, h) / 16`
(integer floor). Let `scale = clamp-to-power-of-two(min(maxScale, 8))`, floored to
at least 1. (Round up to the next power of two first, then cap.)" --- with the
parenthetical order: round `maxScale` up to the next power of two first, then cap
at 8, then floor at 1. -/
def specScale (tw th : ℕ) : ℕ := (min (nextPow2 (min tw th / 16)) 8).max 1

end RustMatch

namespace RustMatch

/-! ## Integral image correctness -/

theorem intRows_eq (d : ℕ → ℕ → ℚ) : ∀ y x, intRows d y x =
    ∑ j ∈ Finset.range y, ∑ i ∈ Finset.range x, d j i := by
  intro y
  induction y with
  | zero => intro x; simp [intRows]
  | succ y ih =>
    intro x
    induction x with
    | zero => simp [intRows, intRow]
    | succ x ihx =>
      show intRow (intRows d y) (d y) (x + 1) = _
      rw [intRow]
      rw [show intRow (intRows d y) (d y) x = intRows d (y + 1) x from rfl]
      rw [ihx, ih (x + 1), ih x]
      rw [Finset.sum_range_succ (fun j => ∑ i ∈ Finset.range (x + 1), d j i) y]
      rw [Finset.sum_range_succ (fun j => ∑ i ∈ Finset.range x, d j i) y]
      rw [Finset.sum_range_succ (fun i => d y i) x]
      ring

theorem corner_sum (d : ℕ → ℕ → ℚ) (x y tw th : ℕ) :
    intRows d (y + th) (x + tw) - intRows d y (x + tw) - intRows d (y + th) x + intRows d y x
      = ∑ j ∈ Finset.range th, ∑ i ∈ Finset.range tw, d (y + j) (x + i) := by
  simp only [intRows_eq]
  rw [Finset.sum_range_add (fun j => ∑ i ∈ Finset.range (x + tw), d j i) y th]
  rw [Finset.sum_range_add (fun j => ∑ i ∈ Finset.range x, d j i) y th]
  have h : ∀ j ∈ Finset.range th, ∑ i ∈ Finset.range (x + tw), d (y + j) i
      = ∑ i ∈ Finset.range x, d (y + j) i + ∑ i ∈ Finset.range tw, d (y + j) (x + i) :=
    fun j _ => Finset.sum_range_add _ x tw
  rw [Finset.sum_congr rfl h, Finset.sum_add_distrib]
  ring

theorem get_stats_eq (data : List ℚ) (w h x y tw th : ℕ) :
    (IntegralImage.new data w h).get_stats x y tw th =
      (∑ j ∈ Finset.range th, ∑ i ∈ Finset.range tw, px data w (y + j) (x + i),
       ∑ j ∈ Finset.range th, ∑ i ∈ Finset.range tw,
         px data w (y + j) (x + i) * px data w (y + j) (x + i)) := by
  unfold IntegralImage.new IntegralImage.get_stats
  exact Prod.ext (corner_sum _ x y tw th) (corner_sum _ x y tw th)

theorem getD_drop (l : List ℚ) (n m : ℕ) : (l.drop n).getD m 0 = l.getD (n + m) 0 := by
  simp [List.getD_eq_getElem?_getD, List.getElem?_drop]

theorem sum_take (l : List ℚ) : ∀ n, n ≤ l.length → ∑ i ∈ Finset.range n, l.getD i 0 = (l.take n).sum := by
  intro n
  induction n with
  | zero => simp
  | succ n ih =>
    intro hn
    rw [Finset.sum_range_succ, ih (by omega), List.take_succ]
    have : l[n]?.toList = [l.getD n 0] := by
      rw [List.getElem?_eq_getElem (by omega)]
      simp [List.getD_eq_getElem?_getD, List.getElem?_eq_getElem (show n < l.length by omega)]
    simp [this]

theorem sum_px_eq_sum (w : ℕ) : ∀ (h : ℕ) (data : List ℚ), data.length = w * h →
    ∑ j ∈ Finset.range h, ∑ i ∈ Finset.range w, px data w j i = data.sum := by
  intro h
  induction h with
  | zero =>
    intro data hlen
    have hd : data = [] := List.length_eq_zero.mp (by simpa using hlen)
    simp [hd]
  | succ h ih =>
    intro data hlen
    rw [Finset.sum_range_succ' (fun j => ∑ i ∈ Finset.range w, px data w j i) h]
    have hrow : ∑ i ∈ Finset.range w, px data w 0 i = (data.take w).sum := by
      have : ∀ i ∈ Finset.range w, px data w 0 i = data.getD i 0 := by
        intro i _; simp [px]
      rw [Finset.sum_congr rfl this, sum_take data w (by nlinarith)]
    have hshift : ∀ j ∈ Finset.range h, ∑ i ∈ Finset.range w, px data w (j + 1) i
        = ∑ i ∈ Finset.range w, px (data.drop w) w j i := by
      intro j _
      refine Finset.sum_congr rfl fun i _ => ?_
      simp only [px, getD_drop]
      congr 1
      ring
    rw [Finset.sum_congr rfl hshift, ih (data.drop w) (by simp [hlen, Nat.mul_succ]), hrow]
    rw [← List.sum_take_add_sum_drop data w]
    ring

end RustMatch

namespace RustMatch

/-! ## Generic list helpers -/

theorem sum_map_range {M : Type} [AddCommMonoid M] (f : ℕ → M) :
    ∀ n, ((List.range n).map f).sum = ∑ i ∈ Finset.range n, f i := by
  intro n
  induction n with
  | zero => simp
  | succ n ih => rw [List.range_succ, Finset.sum_range_succ, ← ih]; simp

theorem getD_map_range {α : Type} (f : ℕ → α) (d : α) {n k : ℕ} (hk : k < n) :
    ((List.range n).map f).getD k d = f k := by
  rw [List.getD_eq_getElem?_getD, List.getElem?_map, List.getElem?_range hk]
  rfl

theorem getD_map_of_lt {α β : Type} (g : α → β) (l : List α) (d : β) (d0 : α) {i : ℕ}
    (hi : i < l.length) : (l.map g).getD i d = g (l.getD i d0) := by
  rw [List.getD_eq_getElem?_getD, List.getElem?_map, List.getElem?_eq_getElem hi,
      List.getD_eq_getElem?_getD, List.getElem?_eq_getElem hi]
  rfl

theorem sum_flatMap {α : Type} {M : Type} [AddCommMonoid M] (f : α → List M) :
    ∀ l : List α, (l.flatMap f).sum = (l.map fun a => (f a).sum).sum := by
  intro l
  induction l with
  | nil => simp
  | cons a l ih => simp [List.flatMap_cons, ih]

/-! ## Fold characterizations -/

theorem bestFold_cons (score : ℕ → ℕ → ℝ) (p : ℕ × ℕ) (ps : List (ℕ × ℕ)) (b : ℕ × ℕ × ℝ) :
    bestFold score (p :: ps) b =
      bestFold score ps (if b.2.2 < score p.1 p.2 then (p.1, p.2, score p.1 p.2) else b) := by
  simp [bestFold]

theorem bestFold_le {score : ℕ → ℕ → ℝ} {c : ℝ} :
    ∀ {ps : List (ℕ × ℕ)}, (∀ p ∈ ps, score p.1 p.2 ≤ c) →
      ∀ b : ℕ × ℕ × ℝ, b.2.2 ≤ c → (bestFold score ps b).2.2 ≤ c := by
  intro ps
  induction ps with
  | nil => intro _ b hb; simpa [bestFold] using hb
  | cons p ps ih =>
    intro h b hb
    rw [bestFold_cons]
    refine ih (fun q hq => h q (List.mem_cons_of_mem _ hq)) _ ?_
    by_cases hc : b.2.2 < score p.1 p.2
    · simpa [hc] using h p (List.mem_cons_self _ _)
    · simpa [hc] using hb

theorem bestFold_cases (score : ℕ → ℕ → ℝ) :
    ∀ (ps : List (ℕ × ℕ)) (b : ℕ × ℕ × ℝ), bestFold score ps b = b ∨
      ∃ p ∈ ps, bestFold score ps b = (p.1, p.2, score p.1 p.2) := by
  intro ps
  induction ps with
  | nil => intro b; left; simp [bestFold]
  | cons p ps ih =>
    intro b
    rw [bestFold_cons]
    by_cases hc : b.2.2 < score p.1 p.2
    · rw [if_pos hc]
      rcases ih (p.1, p.2, score p.1 p.2) with h | ⟨q, hq, h⟩
      · right; exact ⟨p, (List.mem_cons_self _ _), h⟩
      · right; exact ⟨q, List.mem_cons_of_mem _ hq, h⟩
    · rw [if_neg hc]
      rcases ih b with h | ⟨q, hq, h⟩
      · left; exact h
      · right; exact ⟨q, List.mem_cons_of_mem _ hq, h⟩

theorem bestFold_of_le {score : ℕ → ℕ → ℝ} :
    ∀ {ps : List (ℕ × ℕ)} (b : ℕ × ℕ × ℝ), (∀ p ∈ ps, score p.1 p.2 ≤ b.2.2) →
      bestFold score ps b = b := by
  intro ps
  induction ps with
  | nil => intro b _; simp [bestFold]
  | cons p ps ih =>
    intro b h
    rw [bestFold_cons, if_neg (not_lt.mpr (h p (List.mem_cons_self _ _))),
        ih b fun q hq => h q (List.mem_cons_of_mem _ hq)]

theorem bestFold_unique {score : ℕ → ℕ → ℝ} {q : ℕ × ℕ} :
    ∀ {ps : List (ℕ × ℕ)}, q ∈ ps →
      (∀ r ∈ ps, r ≠ q → score r.1 r.2 < score q.1 q.2) →
      ∀ b : ℕ × ℕ × ℝ, b.2.2 < score q.1 q.2 →
      bestFold score ps b = (q.1, q.2, score q.1 q.2) := by
  intro ps
  induction ps with
  | nil => intro h; exact absurd h (List.not_mem_nil q)
  | cons p ps ih =>
    intro hmem hlt b hb
    rw [bestFold_cons]
    by_cases hpq : p = q
    · subst hpq
      rw [if_pos hb]
      refine bestFold_of_le _ fun r hr => ?_
      by_cases hrq : r = p
      · subst hrq; exact le_refl _
      · exact le_of_lt (hlt r (List.mem_cons_of_mem _ hr) hrq)
    · have hq : q ∈ ps := by
        rcases List.mem_cons.mp hmem with h | h
        · exact absurd h.symm hpq
        · exact h
      have hps : score p.1 p.2 < score q.1 q.2 := hlt p (List.mem_cons_self _ _) hpq
      refine ih hq (fun r hr hrq => hlt r (List.mem_cons_of_mem _ hr) hrq) _ ?_
      by_cases hc : b.2.2 < score p.1 p.2
      · simpa [hc] using hps
      · simpa [hc] using hb

theorem combineFold_cons (r : ℕ × ℕ × ℝ) (rows : List (ℕ × ℕ × ℝ)) (b : ℕ × ℕ × ℝ) :
    combineFold (r :: rows) b = combineFold rows (if r.2.2 < b.2.2 then b else r) := by
  simp [combineFold]

theorem combineFold_le {c : ℝ} :
    ∀ {rows : List (ℕ × ℕ × ℝ)}, (∀ r ∈ rows, r.2.2 ≤ c) →
      ∀ b : ℕ × ℕ × ℝ, b.2.2 ≤ c → (combineFold rows b).2.2 ≤ c := by
  intro rows
  induction rows with
  | nil => intro _ b hb; simpa [combineFold] using hb
  | cons r rows ih =>
    intro h b hb
    rw [combineFold_cons]
    refine ih (fun s hs => h s (List.mem_cons_of_mem _ hs)) _ ?_
    by_cases hc : r.2.2 < b.2.2
    · simpa [hc] using hb
    · simpa [hc] using h r (List.mem_cons_self _ _)

theorem combineFold_cases :
    ∀ (rows : List (ℕ × ℕ × ℝ)) (b : ℕ × ℕ × ℝ), combineFold rows b = b ∨
      combineFold rows b ∈ rows := by
  intro rows
  induction rows with
  | nil => intro b; left; simp [combineFold]
  | cons r rows ih =>
    intro b
    rw [combineFold_cons]
    by_cases hc : r.2.2 < b.2.2
    · rw [if_pos hc]
      rcases ih b with h | h
      · left; exact h
      · right; exact List.mem_cons_of_mem _ h
    · rw [if_neg hc]
      rcases ih r with h | h
      · right; rw [h]; exact List.mem_cons_self _ _
      · right; exact List.mem_cons_of_mem _ h

theorem combineFold_keep :
    ∀ {rows : List (ℕ × ℕ × ℝ)} (b : ℕ × ℕ × ℝ), (∀ r ∈ rows, r.2.2 < b.2.2 ∨ r = b) →
      combineFold rows b = b := by
  intro rows
  induction rows with
  | nil => intro b _; simp [combineFold]
  | cons r rows ih =>
    intro b h
    rw [combineFold_cons]
    rcases h r (List.mem_cons_self _ _) with hlt | heq
    · rw [if_pos hlt, ih b fun s hs => h s (List.mem_cons_of_mem _ hs)]
    · subst heq
      rw [if_neg (lt_irrefl _), ih r fun s hs => h s (List.mem_cons_of_mem _ hs)]

theorem combineFold_unique {m : ℕ × ℕ × ℝ} :
    ∀ {rows : List (ℕ × ℕ × ℝ)}, m ∈ rows →
      (∀ r ∈ rows, r ≠ m → r.2.2 < m.2.2) →
      ∀ b : ℕ × ℕ × ℝ, b.2.2 < m.2.2 → combineFold rows b = m := by
  intro rows
  induction rows with
  | nil => intro h; exact absurd h (List.not_mem_nil m)
  | cons r rows ih =>
    intro hmem hlt b hb
    rw [combineFold_cons]
    by_cases hrm : r = m
    · subst hrm
      rw [if_neg (not_lt.mpr (le_of_lt hb))]
      refine combineFold_keep _ fun s hs => ?_
      by_cases hsm : s = r
      · right; exact hsm
      · left; exact hlt s (List.mem_cons_of_mem _ hs) hsm
    · have hm : m ∈ rows := by
        rcases List.mem_cons.mp hmem with h | h
        · exact absurd h.symm hrm
        · exact h
      have hrs : r.2.2 < m.2.2 := hlt r (List.mem_cons_self _ _) hrm
      refine ih hm (fun s hs hsm => hlt s (List.mem_cons_of_mem _ hs) hsm) _ ?_
      by_cases hc : r.2.2 < b.2.2
      · simpa [hc] using hb
      · simpa [hc] using hrs

end RustMatch

namespace RustMatch

/-! ## Window statistics of the NCC primitive -/

theorem get_stats_window (src : List ℚ) (sw sh x y tw th : ℕ) :
    (IntegralImage.new src sw sh).get_stats x y tw th =
      (windowSum src sw x y tw th, windowSqSum src sw x y tw th) :=
  get_stats_eq src sw sh x y tw th

theorem sMean_eq (src : List ℚ) (sw sh x y tw th : ℕ) (tpl_data : List ℚ) :
    sMean (IntegralImage.new src sw sh) (Template.new tpl_data tw th) x y =
      windowSum src sw x y tw th / ((tw * th : ℕ) : ℚ) := by
  unfold sMean
  rw [show (Template.new tpl_data tw th).width = tw from rfl,
      show (Template.new tpl_data tw th).height = th from rfl,
      get_stats_window]

theorem sVar_eq (src : List ℚ) (sw sh x y tw th : ℕ) (tpl_data : List ℚ) :
    sVar (IntegralImage.new src sw sh) (Template.new tpl_data tw th) x y =
      windowSqSum src sw x y tw th / ((tw * th : ℕ) : ℚ)
        - (windowSum src sw x y tw th / ((tw * th : ℕ) : ℚ))
            * (windowSum src sw x y tw th / ((tw * th : ℕ) : ℚ)) := by
  unfold sVar
  rw [show (Template.new tpl_data tw th).width = tw from rfl,
      show (Template.new tpl_data tw th).height = th from rfl,
      get_stats_window, sMean_eq]

/-- The centered sum of squares over a window equals `n * variance`. -/
theorem window_centered (src : List ℚ) (sw x y tw th : ℕ) (h : (tw * th : ℕ) ≠ 0) :
    ∑ j ∈ Finset.range th, ∑ i ∈ Finset.range tw,
        (px src sw (y + j) (x + i) - windowSum src sw x y tw th / ((tw * th : ℕ) : ℚ))
          * (px src sw (y + j) (x + i) - windowSum src sw x y tw th / ((tw * th : ℕ) : ℚ))
      = ((tw * th : ℕ) : ℚ) *
          (windowSqSum src sw x y tw th / ((tw * th : ℕ) : ℚ)
            - (windowSum src sw x y tw th / ((tw * th : ℕ) : ℚ))
                * (windowSum src sw x y tw th / ((tw * th : ℕ) : ℚ))) := by
  have hn : ((tw * th : ℕ) : ℚ) ≠ 0 := Nat.cast_ne_zero.mpr h
  set m : ℚ := windowSum src sw x y tw th / ((tw * th : ℕ) : ℚ) with hm
  have hexp : ∀ j ∈ Finset.range th, ∀ i ∈ Finset.range tw,
      (px src sw (y + j) (x + i) - m) * (px src sw (y + j) (x + i) - m)
        = px src sw (y + j) (x + i) * px src sw (y + j) (x + i)
          - 2 * m * px src sw (y + j) (x + i) + m * m := by
    intro j _ i _; ring
  calc ∑ j ∈ Finset.range th, ∑ i ∈ Finset.range tw,
        (px src sw (y + j) (x + i) - m) * (px src sw (y + j) (x + i) - m)
      = ∑ j ∈ Finset.range th, ∑ i ∈ Finset.range tw,
          (px src sw (y + j) (x + i) * px src sw (y + j) (x + i)
            - 2 * m * px src sw (y + j) (x + i) + m * m) := by
        refine Finset.sum_congr rfl fun j hj => Finset.sum_congr rfl fun i hi => hexp j hj i hi
    _ = windowSqSum src sw x y tw th - 2 * m * windowSum src sw x y tw th
          + ((tw * th : ℕ) : ℚ) * (m * m) := by
        simp only [Finset.sum_add_distrib, Finset.sum_sub_distrib, ← Finset.mul_sum,
          Finset.sum_const, Finset.card_range, nsmul_eq_mul]
        rw [windowSqSum, windowSum]
        push_cast
        ring
    _ = _ := by
        have htw : ((tw : ℚ)) ≠ 0 := Nat.cast_ne_zero.mpr (by intro hh; exact h (by simp [hh]))
        have hth : ((th : ℚ)) ≠ 0 := Nat.cast_ne_zero.mpr (by intro hh; exact h (by simp [hh]))
        rw [hm]
        field_simp
        ring

/-- Index bound for the row-major template index. -/
theorem tpl_idx_lt {tw th j i : ℕ} (hj : j < th) (hi : i < tw) : j * tw + i < tw * th := by
  calc j * tw + i < j * tw + tw := by omega
    _ = (j + 1) * tw := by ring
    _ ≤ th * tw := Nat.mul_le_mul_right tw hj
    _ = tw * th := Nat.mul_comm th tw

/-- With a well-formed template, the normalized template pixel read by the
cross-correlation loop is the raw pixel minus the template mean. -/
theorem normalized_getD (tpl_data : List ℚ) (tw th : ℕ) (htpl : tpl_data.length = tw * th)
    {j i : ℕ} (hj : j < th) (hi : i < tw) :
    (Template.new tpl_data tw th).normalized.getD (j * tw + i) 0
      = px tpl_data tw j i - bufMean tpl_data tw th := by
  unfold Template.new px
  simp only
  rw [getD_map_of_lt _ _ _ 0 (by rw [htpl]; exact tpl_idx_lt hj hi)]

theorem cross_eq (src : List ℚ) (sw sh x y tw th : ℕ) (tpl_data : List ℚ)
    (htpl : tpl_data.length = tw * th) :
    cross src sw (IntegralImage.new src sw sh) (Template.new tpl_data tw th) x y
      = ∑ j ∈ Finset.range th, ∑ i ∈ Finset.range tw,
          (px src sw (y + j) (x + i) - windowSum src sw x y tw th / ((tw * th : ℕ) : ℚ))
            * (px tpl_data tw j i - bufMean tpl_data tw th) := by
  unfold cross
  rw [show (Template.new tpl_data tw th).width = tw from rfl,
      show (Template.new tpl_data tw th).height = th from rfl]
  refine Finset.sum_congr rfl fun j hj => Finset.sum_congr rfl fun i hi => ?_
  rw [normalized_getD tpl_data tw th htpl (Finset.mem_range.mp hj) (Finset.mem_range.mp hi),
      sMean_eq]

/-- The centered template sum of squares equals `n * bufVar`. -/
theorem tpl_centered (tpl_data : List ℚ) (tw th : ℕ) (htpl : tpl_data.length = tw * th)
    (h : (tw * th : ℕ) ≠ 0) :
    ∑ j ∈ Finset.range th, ∑ i ∈ Finset.range tw,
        (px tpl_data tw j i - bufMean tpl_data tw th)
          * (px tpl_data tw j i - bufMean tpl_data tw th)
      = ((tw * th : ℕ) : ℚ) * bufVar tpl_data tw th := by
  have hsum : windowSum tpl_data tw 0 0 tw th = tpl_data.sum := by
    unfold windowSum
    simpa using sum_px_eq_sum tw th tpl_data htpl
  have hsq : windowSqSum tpl_data tw 0 0 tw th = bufSqSum tpl_data := by
    unfold windowSqSum bufSqSum
    have hlen : (tpl_data.map fun v => v * v).length = tw * th := by simpa using htpl
    rw [← sum_px_eq_sum tw th (tpl_data.map fun v => v * v) hlen]
    refine Finset.sum_congr rfl fun j hj => Finset.sum_congr rfl fun i hi => ?_
    have hj' := Finset.mem_range.mp hj
    have hi' := Finset.mem_range.mp hi
    simp only [px, Nat.zero_add]
    rw [getD_map_of_lt _ _ _ 0 (by rw [htpl]; exact tpl_idx_lt hj' hi')]
  have h0 := window_centered tpl_data tw 0 0 tw th h
  simp only [Nat.zero_add] at h0
  rw [hsum, hsq] at h0
  simp only [bufVar, bufMean]
  exact h0

end RustMatch

namespace RustMatch

/-! ## NCC bound and self-match value -/

theorem windowSum_full (src : List ℚ) (sw sh : ℕ) (hsrc : src.length = sw * sh) :
    windowSum src sw 0 0 sw sh = src.sum := by
  unfold windowSum
  simpa using sum_px_eq_sum sw sh src hsrc

theorem windowSqSum_full (src : List ℚ) (sw sh : ℕ) (hsrc : src.length = sw * sh) :
    windowSqSum src sw 0 0 sw sh = bufSqSum src := by
  unfold windowSqSum bufSqSum
  have hlen : (src.map fun v => v * v).length = sw * sh := by simpa using hsrc
  rw [← sum_px_eq_sum sw sh (src.map fun v => v * v) hlen]
  refine Finset.sum_congr rfl fun j hj => Finset.sum_congr rfl fun i hi => ?_
  have hj' := Finset.mem_range.mp hj
  have hi' := Finset.mem_range.mp hi
  simp only [px, Nat.zero_add]
  rw [getD_map_of_lt _ _ _ 0 (by rw [hsrc]; exact tpl_idx_lt hj' hi')]

theorem sVar_zero_of_n_zero (src : List ℚ) (sw sh x y tw th : ℕ) (tpl_data : List ℚ)
    (h0 : tw * th = 0) :
    sVar (IntegralImage.new src sw sh) (Template.new tpl_data tw th) x y = 0 := by
  rw [sVar_eq]
  rw [show ((tw * th : ℕ) : ℚ) = 0 by exact_mod_cast congrArg Nat.cast h0]
  simp

/-- Claim C8's core bound: every NCC score lies in `[-1, 1]`, for a
well-formed template. -/
theorem ncc_abs_le (src tpl_data : List ℚ) (sw sh tw th x y : ℕ)
    (htpl : tpl_data.length = tw * th) :
    |compute_ncc src sw (IntegralImage.new src sw sh) (Template.new tpl_data tw th) x y| ≤ 1 := by
  unfold compute_ncc
  by_cases hvlt : sVar (IntegralImage.new src sw sh) (Template.new tpl_data tw th) x y < 1
  · rw [if_pos hvlt]; norm_num
  · rw [if_neg hvlt]
    push_neg at hvlt
    have hN : tw * th ≠ 0 := by
      intro h0
      rw [sVar_zero_of_n_zero src sw sh x y tw th tpl_data h0] at hvlt
      norm_num at hvlt
    have hNQ : ((tw * th : ℕ) : ℚ) ≠ 0 := Nat.cast_ne_zero.mpr hN
    set v : ℚ := sVar (IntegralImage.new src sw sh) (Template.new tpl_data tw th) x y with hvdef
    set vt : ℚ := bufVar tpl_data tw th with hvtdef
    set C : ℚ := cross src sw (IntegralImage.new src sw sh) (Template.new tpl_data tw th) x y
      with hCdef
    set nQ : ℚ := ((tw * th : ℕ) : ℚ) with hnQ
    -- Cauchy-Schwarz in ℚ over the window
    have hA : ∑ j ∈ Finset.range th, ∑ i ∈ Finset.range tw,
        (px src sw (y + j) (x + i) - windowSum src sw x y tw th / nQ)
          * (px src sw (y + j) (x + i) - windowSum src sw x y tw th / nQ) = nQ * v := by
      rw [hvdef, sVar_eq]
      exact window_centered src sw x y tw th hN
    have hB : ∑ j ∈ Finset.range th, ∑ i ∈ Finset.range tw,
        (px tpl_data tw j i - bufMean tpl_data tw th)
          * (px tpl_data tw j i - bufMean tpl_data tw th) = nQ * vt :=
      tpl_centered tpl_data tw th htpl hN
    have hC : C = ∑ j ∈ Finset.range th, ∑ i ∈ Finset.range tw,
        (px src sw (y + j) (x + i) - windowSum src sw x y tw th / nQ)
          * (px tpl_data tw j i - bufMean tpl_data tw th) :=
      cross_eq src sw sh x y tw th tpl_data htpl
    have hCS : C ^ 2 ≤ (nQ * v) * (nQ * vt) := by
      rw [← hA, ← hB, hC]
      have := Finset.sum_mul_sq_le_sq_mul_sq (Finset.range th ×ˢ Finset.range tw)
        (fun p => px src sw (y + p.1) (x + p.2) - windowSum src sw x y tw th / nQ)
        (fun p => px tpl_data tw p.1 p.2 - bufMean tpl_data tw th)
      rw [Finset.sum_product, Finset.sum_product, Finset.sum_product] at this
      calc (∑ j ∈ Finset.range th, ∑ i ∈ Finset.range tw,
            (px src sw (y + j) (x + i) - windowSum src sw x y tw th / nQ)
              * (px tpl_data tw j i - bufMean tpl_data tw th)) ^ 2
          ≤ (∑ j ∈ Finset.range th, ∑ i ∈ Finset.range tw,
              (px src sw (y + j) (x + i) - windowSum src sw x y tw th / nQ) ^ 2)
            * (∑ j ∈ Finset.range th, ∑ i ∈ Finset.range tw,
              (px tpl_data tw j i - bufMean tpl_data tw th) ^ 2) := this
        _ = _ := by
            have e1 : ∑ j ∈ Finset.range th, ∑ i ∈ Finset.range tw,
                (px src sw (y + j) (x + i) - windowSum src sw x y tw th / nQ) ^ 2
              = ∑ j ∈ Finset.range th, ∑ i ∈ Finset.range tw,
                (px src sw (y + j) (x + i) - windowSum src sw x y tw th / nQ)
                  * (px src sw (y + j) (x + i) - windowSum src sw x y tw th / nQ) := by
              refine Finset.sum_congr rfl fun j _ => Finset.sum_congr rfl fun i _ => ?_
              ring
            have e2 : ∑ j ∈ Finset.range th, ∑ i ∈ Finset.range tw,
                (px tpl_data tw j i - bufMean tpl_data tw th) ^ 2
              = ∑ j ∈ Finset.range th, ∑ i ∈ Finset.range tw,
                (px tpl_data tw j i - bufMean tpl_data tw th)
                  * (px tpl_data tw j i - bufMean tpl_data tw th) := by
              refine Finset.sum_congr rfl fun j _ => Finset.sum_congr rfl fun i _ => ?_
              ring
            rw [e1, e2]
    -- pass to ℝ
    have hv1R : (1 : ℝ) ≤ ((v : ℚ) : ℝ) := by exact_mod_cast hvlt
    have hvR0 : (0 : ℝ) < ((v : ℚ) : ℝ) := lt_of_lt_of_le one_pos hv1R
    have hNR : (1 : ℝ) ≤ ((nQ : ℚ) : ℝ) := by
      rw [hnQ]; push_cast; exact_mod_cast Nat.one_le_iff_ne_zero.mpr hN
    have hNR0 : (0 : ℝ) < ((nQ : ℚ) : ℝ) := lt_of_lt_of_le one_pos hNR
    have hvtR : (0 : ℝ) ≤ ((vt : ℚ) : ℝ) := by
      have hprod : (0 : ℚ) ≤ nQ * vt := by
        rw [← hB]
        exact Finset.sum_nonneg fun j _ => Finset.sum_nonneg fun i _ => mul_self_nonneg _
      have hnQpos : (0 : ℚ) < nQ := by
        rw [hnQ]
        exact_mod_cast Nat.pos_of_ne_zero hN
      have hnn : (0 : ℚ) ≤ vt := by nlinarith
      exact_mod_cast hnn
    have hCSR : (((C : ℚ) : ℝ)) ^ 2 ≤ (((nQ : ℚ) : ℝ) * ((v : ℚ) : ℝ))
        * (((nQ : ℚ) : ℝ) * ((vt : ℚ) : ℝ)) := by exact_mod_cast hCS
    set CR : ℝ := ((C : ℚ) : ℝ)
    set vR : ℝ := ((v : ℚ) : ℝ)
    set vtR : ℝ := ((vt : ℚ) : ℝ)
    set NR : ℝ := ((nQ : ℚ) : ℝ)
    have hsvpos : 0 < Real.sqrt vR := Real.sqrt_pos.mpr hvR0
    have heps : (0 : ℝ) < 1 / 10 ^ 10 := by norm_num
    have hmaxpos : 0 < max (Real.sqrt vtR) (1 / 10 ^ 10) :=
      lt_of_lt_of_le heps (le_max_right _ _)
    -- |CR| ≤ sqrt vR * (max (sqrt vtR) eps * NR)
    have habs : |CR| ≤ Real.sqrt vR * (max (Real.sqrt vtR) (1 / 10 ^ 10) * NR) := by
      have h1 : |CR| = Real.sqrt (CR ^ 2) := (Real.sqrt_sq_eq_abs CR).symm
      have h2 : Real.sqrt (CR ^ 2) ≤ Real.sqrt ((NR * vR) * (NR * vtR)) :=
        Real.sqrt_le_sqrt hCSR
      have h3 : Real.sqrt ((NR * vR) * (NR * vtR))
          = Real.sqrt vR * (Real.sqrt vtR * NR) := by
        rw [show (NR * vR) * (NR * vtR) = (vR * (vtR * (NR * NR))) by ring]
        rw [Real.sqrt_mul (le_of_lt hvR0), Real.sqrt_mul hvtR,
            Real.sqrt_mul_self (le_of_lt hNR0)]
      have h4 : Real.sqrt vR * (Real.sqrt vtR * NR)
          ≤ Real.sqrt vR * (max (Real.sqrt vtR) (1 / 10 ^ 10) * NR) := by
        refine mul_le_mul_of_nonneg_left ?_ (Real.sqrt_nonneg _)
        exact mul_le_mul_of_nonneg_right (le_max_left _ _) (le_of_lt hNR0)
      calc |CR| = Real.sqrt (CR ^ 2) := h1
        _ ≤ Real.sqrt ((NR * vR) * (NR * vtR)) := h2
        _ = Real.sqrt vR * (Real.sqrt vtR * NR) := h3
        _ ≤ _ := h4
    -- conclude
    have hstd : (Template.new tpl_data tw th).inv_std_n
        = 1 / (max (Real.sqrt vtR) (1 / 10 ^ 10) * NR) := rfl
    rw [hstd]
    rw [abs_div, abs_mul]
    rw [abs_of_nonneg (by positivity : (0:ℝ) ≤ 1 / (max (Real.sqrt vtR) (1 / 10 ^ 10) * NR)),
        abs_of_nonneg (Real.sqrt_nonneg vR)]
    rw [div_le_one hsvpos, mul_one_div, div_le_iff₀ (by positivity)]
    calc |CR| ≤ Real.sqrt vR * (max (Real.sqrt vtR) (1 / 10 ^ 10) * NR) := habs
      _ = 1 * (Real.sqrt vR * (max (Real.sqrt vtR) (1 / 10 ^ 10) * NR)) := by ring
      _ ≤ _ := by rw [one_mul]

end RustMatch

namespace RustMatch

/-- Matching a buffer against itself at alignment `(0,0)`: when the buffer
variance is at least 1, the NCC score is exactly 1. -/
theorem ncc_self (src : List ℚ) (sw sh : ℕ) (hsrc : src.length = sw * sh)
    (hv : 1 ≤ bufVar src sw sh) :
    compute_ncc src sw (IntegralImage.new src sw sh) (Template.new src sw sh) 0 0 = 1 := by
  have hN : sw * sh ≠ 0 := by
    intro h0
    have : bufVar src sw sh = 0 := by
      unfold bufVar bufMean
      rw [show ((sw * sh : ℕ) : ℚ) = 0 by exact_mod_cast congrArg Nat.cast h0]
      simp
    rw [this] at hv
    norm_num at hv
  have hNQ : ((sw * sh : ℕ) : ℚ) ≠ 0 := Nat.cast_ne_zero.mpr hN
  have hsv : sVar (IntegralImage.new src sw sh) (Template.new src sw sh) 0 0
      = bufVar src sw sh := by
    rw [sVar_eq src sw sh 0 0 sw sh src, windowSum_full src sw sh hsrc,
        windowSqSum_full src sw sh hsrc]
    unfold bufVar bufMean
    rfl
  have hcross : cross src sw (IntegralImage.new src sw sh) (Template.new src sw sh) 0 0
      = ((sw * sh : ℕ) : ℚ) * bufVar src sw sh := by
    rw [cross_eq src sw sh 0 0 sw sh src hsrc, windowSum_full src sw sh hsrc]
    rw [← tpl_centered src sw sh hsrc hN]
    refine Finset.sum_congr rfl fun j _ => Finset.sum_congr rfl fun i _ => ?_
    simp only [Nat.zero_add]
    rfl
  unfold compute_ncc
  rw [hsv, if_neg (not_lt.mpr hv), hcross]
  have hvR : (1 : ℝ) ≤ ((bufVar src sw sh : ℚ) : ℝ) := by exact_mod_cast hv
  have hvR0 : (0 : ℝ) < ((bufVar src sw sh : ℚ) : ℝ) := lt_of_lt_of_le one_pos hvR
  have hsq1 : (1 : ℝ) ≤ Real.sqrt ((bufVar src sw sh : ℚ) : ℝ) := by
    rw [show (1:ℝ) = Real.sqrt 1 by simp]
    exact Real.sqrt_le_sqrt (by exact_mod_cast hv)
  have hmax : max (Real.sqrt ((bufVar src sw sh : ℚ) : ℝ)) (1 / 10 ^ 10)
      = Real.sqrt ((bufVar src sw sh : ℚ) : ℝ) :=
    max_eq_left (le_trans (by norm_num) hsq1)
  have hstd : (Template.new src sw sh).inv_std_n
      = 1 / (max (Real.sqrt ((bufVar src sw sh : ℚ) : ℝ)) (1 / 10 ^ 10)
          * ((sw * sh : ℕ) : ℝ)) := rfl
  rw [hstd, hmax]
  have hNR : ((sw * sh : ℕ) : ℝ) ≠ 0 := by exact_mod_cast hNQ
  have hsqne : Real.sqrt ((bufVar src sw sh : ℚ) : ℝ) ≠ 0 :=
    ne_of_gt (lt_of_lt_of_le one_pos hsq1)
  have hself : Real.sqrt ((bufVar src sw sh : ℚ) : ℝ)
      * Real.sqrt ((bufVar src sw sh : ℚ) : ℝ) = ((bufVar src sw sh : ℚ) : ℝ) :=
    Real.mul_self_sqrt (le_of_lt hvR0)
  rw [Rat.cast_mul, Rat.cast_natCast]
  set sq : ℝ := Real.sqrt ((bufVar src sw sh : ℚ) : ℝ) with hsqdef
  have hstep : ((sw * sh : ℕ) : ℝ) * ((bufVar src sw sh : ℚ) : ℝ) * (1 / (sq * ((sw * sh : ℕ) : ℝ))) / sq
      = ((sw * sh : ℕ) : ℝ) * ((bufVar src sw sh : ℚ) : ℝ)
        / (((sw * sh : ℕ) : ℝ) * (sq * sq)) := by
    ring
  rw [hstep, hself]
  exact div_self (mul_ne_zero hNR (ne_of_gt hvR0))

end RustMatch

namespace RustMatch

/-! ## Position-list membership -/

theorem mem_rowPositions {endX y : ℕ} {p : ℕ × ℕ} :
    p ∈ rowPositions endX y ↔ p.1 ≤ endX ∧ p.2 = y := by
  unfold rowPositions
  simp only [List.mem_map, List.mem_range]
  constructor
  · rintro ⟨x, hx, rfl⟩
    exact ⟨by omega, rfl⟩
  · rintro ⟨h1, h2⟩
    exact ⟨p.1, by omega, by rw [← h2]⟩

theorem mem_regionPositions {x1 y1 x2 y2 : ℕ} {p : ℕ × ℕ} :
    p ∈ regionPositions x1 y1 x2 y2 ↔
      x1 ≤ p.1 ∧ p.1 ≤ x2 ∧ y1 ≤ p.2 ∧ p.2 ≤ y2 := by
  unfold regionPositions
  simp only [List.mem_flatMap, List.mem_map, List.mem_range]
  constructor
  · rintro ⟨j, hj, i, hi, rfl⟩
    exact ⟨by omega, by omega, by omega, by omega⟩
  · rintro ⟨h1, h2, h3, h4⟩
    exact ⟨p.2 - y1, by omega, ⟨p.1 - x1, by omega, by
      rcases p with ⟨a, b⟩
      simp only [Prod.mk.injEq]
      omega⟩⟩

theorem mem_sweepPositions {endX endY : ℕ} {p : ℕ × ℕ} :
    p ∈ sweepPositions endX endY ↔
      ∃ xi yi, xi ≤ endX / 2 ∧ yi ≤ endY / 2 ∧ p = (xi * 2, yi * 2) := by
  unfold sweepPositions
  simp only [List.mem_flatMap, List.mem_map, List.mem_range]
  constructor
  · rintro ⟨yi, hyi, xi, hxi, rfl⟩
    exact ⟨xi, yi, by omega, by omega, rfl⟩
  · rintro ⟨xi, yi, h1, h2, rfl⟩
    exact ⟨yi, by omega, xi, by omega, rfl⟩

theorem mem_refinePositions {cx cy endX endY : ℕ} {p : ℕ × ℕ} :
    p ∈ refinePositions cx cy endX endY →
      p.1 ≤ endX ∧ p.2 ≤ endY := by
  unfold refinePositions
  simp only [List.mem_flatMap, List.mem_map, List.mem_range]
  rintro ⟨dy, _, dx, _, rfl⟩
  exact ⟨min_le_right _ _, min_le_right _ _⟩

/-! ## search_best characterizations -/

theorem rowBest_def (src : List ℚ) (sw : ℕ) (t : IntegralImage) (tpl : Template) (endX y : ℕ) :
    rowBest src sw t tpl endX y
      = bestFold (compute_ncc src sw t tpl) (rowPositions endX y) (0, y, -1) := rfl

theorem rowBest_cases (src : List ℚ) (sw : ℕ) (t : IntegralImage) (tpl : Template) (endX y : ℕ) :
    rowBest src sw t tpl endX y = (0, y, -1) ∨
      ∃ x ≤ endX, rowBest src sw t tpl endX y = (x, y, compute_ncc src sw t tpl x y) := by
  rw [rowBest_def]
  rcases bestFold_cases (compute_ncc src sw t tpl) (rowPositions endX y) (0, y, -1) with h | ⟨p, hp, h⟩
  · left; exact h
  · right
    obtain ⟨h1, h2⟩ := mem_rowPositions.mp hp
    exact ⟨p.1, h1, by rw [h, h2]⟩

theorem rowBest_snd (src : List ℚ) (sw : ℕ) (t : IntegralImage) (tpl : Template) (endX y : ℕ) :
    (rowBest src sw t tpl endX y).2.1 = y := by
  rcases rowBest_cases src sw t tpl endX y with h | ⟨x, _, h⟩ <;> rw [h]

theorem rowBest_le {src : List ℚ} {sw : ℕ} {t : IntegralImage} {tpl : Template} {endX y : ℕ}
    {c : ℝ} (hc : -1 ≤ c) (h : ∀ x ≤ endX, compute_ncc src sw t tpl x y ≤ c) :
    (rowBest src sw t tpl endX y).2.2 ≤ c := by
  rw [rowBest_def]
  refine bestFold_le (fun p hp => ?_) _ hc
  obtain ⟨h1, h2⟩ := mem_rowPositions.mp hp
  rw [h2]
  exact h p.1 h1

theorem bestAlignment_def (src : List ℚ) (sw sh : ℕ) (tpl : Template) :
    bestAlignment src sw sh tpl = combineFold
      ((List.range (sh - tpl.height + 1)).map fun y =>
        rowBest src sw (IntegralImage.new src sw sh) tpl (sw - tpl.width) y)
      (0, 0, -1) := rfl

theorem bestAlignment_le {src : List ℚ} {sw sh : ℕ} {tpl : Template} {c : ℝ} (hc : -1 ≤ c)
    (h : ∀ x ≤ sw - tpl.width, ∀ y ≤ sh - tpl.height,
      compute_ncc src sw (IntegralImage.new src sw sh) tpl x y ≤ c) :
    (bestAlignment src sw sh tpl).2.2 ≤ c := by
  rw [bestAlignment_def]
  refine combineFold_le (fun r hr => ?_) _ hc
  obtain ⟨y, hy, rfl⟩ := List.mem_map.mp hr
  have hy' : y ≤ sh - tpl.height := by
    have := List.mem_range.mp hy
    omega
  exact rowBest_le hc fun x hx => h x hx y hy'

theorem bestAlignment_bounds (src : List ℚ) (sw sh : ℕ) (tpl : Template) :
    (bestAlignment src sw sh tpl).1 ≤ sw - tpl.width ∧
      (bestAlignment src sw sh tpl).2.1 ≤ sh - tpl.height := by
  rw [bestAlignment_def]
  rcases combineFold_cases ((List.range (sh - tpl.height + 1)).map fun y =>
      rowBest src sw (IntegralImage.new src sw sh) tpl (sw - tpl.width) y) (0, 0, -1) with h | h
  · rw [h]; exact ⟨Nat.zero_le _, Nat.zero_le _⟩
  · obtain ⟨y, hy, heq⟩ := List.mem_map.mp h
    have hy' : y ≤ sh - tpl.height := by
      have := List.mem_range.mp hy
      omega
    rcases rowBest_cases src sw (IntegralImage.new src sw sh) tpl (sw - tpl.width) y with
      hr | ⟨x, hx, hr⟩
    · rw [← heq, hr]; exact ⟨Nat.zero_le _, hy'⟩
    · rw [← heq, hr]; exact ⟨hx, hy'⟩

/-- A `search_best` result's coordinates are admissible alignments. -/
theorem search_best_mem {src : List ℚ} {sw sh : ℕ} {tpl : Template} {threshold : ℝ}
    {m : MatchResult} (h : search_best src sw sh tpl threshold = some m) :
    m.x ≤ sw - tpl.width ∧ m.y ≤ sh - tpl.height := by
  unfold search_best at h
  by_cases hg : tpl.width > sw ∨ tpl.height > sh
  · rw [if_pos hg] at h; exact absurd h (by simp)
  · rw [if_neg hg] at h
    by_cases ht : threshold ≤ (bestAlignment src sw sh tpl).2.2
    · rw [if_pos ht] at h
      obtain ⟨h1, h2⟩ := bestAlignment_bounds src sw sh tpl
      have := Option.some.inj h
      rw [← this]
      exact ⟨h1, h2⟩
    · rw [if_neg ht] at h; exact absurd h (by simp)

end RustMatch

namespace RustMatch

/-! ## No-match results for out-of-range thresholds; self-match results -/

theorem search_best_none_of_gt_one (src tpl_data : List ℚ) (sw sh tw th : ℕ) (τ : ℝ)
    (htpl : tpl_data.length = tw * th) (hτ : 1 < τ) :
    search_best src sw sh (Template.new tpl_data tw th) τ = none := by
  unfold search_best
  by_cases hg : (Template.new tpl_data tw th).width > sw ∨ (Template.new tpl_data tw th).height > sh
  · rw [if_pos hg]
  · rw [if_neg hg]
    have hb : (bestAlignment src sw sh (Template.new tpl_data tw th)).2.2 ≤ 1 :=
      bestAlignment_le (by norm_num) fun x _ y _ =>
        (abs_le.mp (ncc_abs_le src tpl_data sw sh tw th x y htpl)).2
    rw [if_neg (by push_neg; exact lt_of_le_of_lt hb hτ)]

theorem search_region_none_of_gt_one (src tpl_data : List ℚ) (sw sh tw th x1 y1 x2 y2 : ℕ)
    (τ : ℝ) (htpl : tpl_data.length = tw * th) (hτ : 1 < τ) :
    search_region src sw sh (Template.new tpl_data tw th) x1 y1 x2 y2 τ = none := by
  unfold search_region
  have hb : (regionBest src sw sh (Template.new tpl_data tw th) x1 y1 x2 y2).2.2 ≤ 1 := by
    unfold regionBest
    refine bestFold_le (fun p _ => ?_) _ (by norm_num)
    exact (abs_le.mp (ncc_abs_le src tpl_data sw sh tw th p.1 p.2 htpl)).2
  rw [if_neg (by push_neg; exact lt_of_le_of_lt hb hτ)]

theorem downsample_length (src : List ℚ) (sw sh scale : ℕ) :
    (downsample src sw sh scale).1.length = (sw / scale) * (sh / scale) := by
  unfold downsample
  simp only [List.length_flatMap]
  have h1 : List.map
      (List.length ∘ fun y => (List.range (sw / scale)).map fun x =>
        (∑ dy ∈ Finset.range scale, ∑ dx ∈ Finset.range scale,
          px src sw (y * scale + dy) (x * scale + dx)) / ((scale * scale : ℕ) : ℚ))
      (List.range (sh / scale))
      = List.replicate (sh / scale) (sw / scale) := by
    rw [List.map_congr_left (g := fun _ => sw / scale) fun y _ => by simp]
    simp [List.map_const']
  rw [h1, List.sum_replicate, smul_eq_mul, Nat.mul_comm]

end RustMatch

namespace RustMatch

theorem pyramid_none_of_gt_one (src tpl_data : List ℚ) (sw sh tw th : ℕ) (τ : ℝ)
    (htpl : tpl_data.length = tw * th) (hτ : 1 < τ) :
    pyramid_match src sw sh tpl_data tw th τ = none := by
  unfold pyramid_match
  by_cases hg : tw > sw ∨ th > sh
  · rw [if_pos hg]
  · rw [if_neg hg]
    by_cases hs : 4 ≤ scaleFor tw th
    · rw [if_pos hs]
      cases hc : search_best (downsample src sw sh (scaleFor tw th)).1
          (sw / scaleFor tw th) (sh / scaleFor tw th)
          (Template.new (downsample tpl_data tw th (scaleFor tw th)).1
            (tw / scaleFor tw th) (th / scaleFor tw th)) (τ * 0.5) with
      | none => rfl
      | some coarse =>
          exact search_region_none_of_gt_one src tpl_data sw sh tw th _ _ _ _ τ htpl hτ
    · rw [if_neg hs]
      exact search_best_none_of_gt_one src tpl_data sw sh tw th τ htpl hτ

/-- Self-match: `search_best` on a buffer against itself returns the exact
match `(0, 0)` with confidence exactly 1 when the buffer variance is ≥ 1. -/
theorem search_best_self (src : List ℚ) (sw sh : ℕ) (τ : ℝ)
    (hsrc : src.length = sw * sh) (hv : 1 ≤ bufVar src sw sh) (hτ : τ ≤ 1) :
    search_best src sw sh (Template.new src sw sh) τ = some ⟨0, 0, 1⟩ := by
  have hscore : compute_ncc src sw (IntegralImage.new src sw sh) (Template.new src sw sh) 0 0 = 1 :=
    ncc_self src sw sh hsrc hv
  have hba : bestAlignment src sw sh (Template.new src sw sh) = (0, 0, 1) := by
    rw [bestAlignment_def]
    have hh : sh - (Template.new src sw sh).height + 1 = 1 := by
      rw [show (Template.new src sw sh).height = sh from rfl]
      omega
    rw [hh]
    have hrow : rowBest src sw (IntegralImage.new src sw sh) (Template.new src sw sh)
        (sw - (Template.new src sw sh).width) 0 = (0, 0, 1) := by
      rw [rowBest_def]
      rw [show sw - (Template.new src sw sh).width = 0 by
        rw [show (Template.new src sw sh).width = sw from rfl]; omega]
      rw [show rowPositions 0 0 = [(0, 0)] from rfl]
      rw [show bestFold (compute_ncc src sw (IntegralImage.new src sw sh)
            (Template.new src sw sh)) [(0, 0)] (0, 0, -1)
          = if (-1 : ℝ) < compute_ncc src sw (IntegralImage.new src sw sh)
              (Template.new src sw sh) 0 0
            then (0, 0, compute_ncc src sw (IntegralImage.new src sw sh)
              (Template.new src sw sh) 0 0) else (0, 0, -1) from rfl]
      rw [hscore, if_pos (by norm_num)]
    rw [show List.range 1 = [0] from rfl]
    simp only [List.map_cons, List.map_nil]
    rw [hrow]
    rw [show combineFold [((0, 0, 1) : ℕ × ℕ × ℝ)] (0, 0, -1)
        = if (1 : ℝ) < (-1 : ℝ) then (0, 0, -1) else (0, 0, 1) from rfl]
    rw [if_neg (by norm_num)]
  unfold search_best
  rw [if_neg (by
    rw [show (Template.new src sw sh).width = sw from rfl,
        show (Template.new src sw sh).height = sh from rfl]
    omega)]
  rw [hba]
  rw [if_pos (by simpa using hτ)]

/-- Self-match with an essentially flat buffer (variance < 1): the single
alignment scores 0, so any positive threshold gives no match. -/
theorem search_best_self_flat (src : List ℚ) (sw sh : ℕ) (τ : ℝ)
    (hsrc : src.length = sw * sh) (hv : bufVar src sw sh < 1) (hτ : 0 < τ) :
    search_best src sw sh (Template.new src sw sh) τ = none := by
  have hsv : sVar (IntegralImage.new src sw sh) (Template.new src sw sh) 0 0
      = bufVar src sw sh := by
    rw [sVar_eq src sw sh 0 0 sw sh src, windowSum_full src sw sh hsrc,
        windowSqSum_full src sw sh hsrc]
    unfold bufVar bufMean
    rfl
  have hscore : compute_ncc src sw (IntegralImage.new src sw sh) (Template.new src sw sh) 0 0 = 0 := by
    unfold compute_ncc
    rw [hsv, if_pos hv]
  have hba : bestAlignment src sw sh (Template.new src sw sh) = (0, 0, 0) := by
    rw [bestAlignment_def]
    have hh : sh - (Template.new src sw sh).height + 1 = 1 := by
      rw [show (Template.new src sw sh).height = sh from rfl]
      omega
    rw [hh]
    have hrow : rowBest src sw (IntegralImage.new src sw sh) (Template.new src sw sh)
        (sw - (Template.new src sw sh).width) 0 = (0, 0, 0) := by
      rw [rowBest_def]
      rw [show sw - (Template.new src sw sh).width = 0 by
        rw [show (Template.new src sw sh).width = sw from rfl]; omega]
      rw [show rowPositions 0 0 = [(0, 0)] from rfl]
      rw [show bestFold (compute_ncc src sw (IntegralImage.new src sw sh)
            (Template.new src sw sh)) [(0, 0)] (0, 0, -1)
          = if (-1 : ℝ) < compute_ncc src sw (IntegralImage.new src sw sh)
              (Template.new src sw sh) 0 0
            then (0, 0, compute_ncc src sw (IntegralImage.new src sw sh)
              (Template.new src sw sh) 0 0) else (0, 0, -1) from rfl]
      rw [hscore, if_pos (by norm_num)]
    rw [show List.range 1 = [0] from rfl]
    simp only [List.map_cons, List.map_nil]
    rw [hrow]
    rw [show combineFold [((0, 0, 0) : ℕ × ℕ × ℝ)] (0, 0, -1)
        = if (0 : ℝ) < (-1 : ℝ) then (0, 0, -1) else (0, 0, 0) from rfl]
    rw [if_neg (by norm_num)]
  unfold search_best
  rw [if_neg (by
    rw [show (Template.new src sw sh).width = sw from rfl,
        show (Template.new src sw sh).height = sh from rfl]
    omega)]
  rw [hba]
  rw [if_neg (by simpa using hτ)]

end RustMatch

namespace RustMatch

/-! ## Claim C2: findSingle(s, s, t) -/

theorem search_region_self (src : List ℚ) (sw sh : ℕ) (τ : ℝ)
    (hsrc : src.length = sw * sh) (hv : 1 ≤ bufVar src sw sh) (hτ : τ ≤ 1) :
    search_region src sw sh (Template.new src sw sh) 0 0 0 0 τ = some ⟨0, 0, 1⟩ := by
  have hscore : compute_ncc src sw (IntegralImage.new src sw sh) (Template.new src sw sh) 0 0 = 1 :=
    ncc_self src sw sh hsrc hv
  have hrb : regionBest src sw sh (Template.new src sw sh) 0 0 0 0 = (0, 0, 1) := by
    unfold regionBest
    rw [show regionPositions 0 0 0 0 = [(0, 0)] from rfl]
    rw [show bestFold (compute_ncc src sw (IntegralImage.new src sw sh)
          (Template.new src sw sh)) [(0, 0)] (0, 0, -1)
        = if (-1 : ℝ) < compute_ncc src sw (IntegralImage.new src sw sh)
            (Template.new src sw sh) 0 0
          then (0, 0, compute_ncc src sw (IntegralImage.new src sw sh)
            (Template.new src sw sh) 0 0) else (0, 0, -1) from rfl]
    rw [hscore, if_pos (by norm_num)]
  unfold search_region
  rw [hrb]
  rw [if_pos (by simpa using hτ)]

/-- C2 (amended): for a source with variance at least 1 (and, when the
pyramid path downsamples, a downsampled variance at least 1) and any
threshold `t ≤ 1.0`, `findSingle(s, s, t)` returns the match `(0, 0)` with
confidence exactly `1.0`. -/
theorem C2_self_match_amended (src : List ℚ) (sw sh : ℕ) (τ : ℝ)
    (hsrc : src.length = sw * sh)
    (hv : 1 ≤ bufVar src sw sh)
    (hcoarse : 4 ≤ scaleFor sw sh →
      1 ≤ bufVar (downsample src sw sh (scaleFor sw sh)).1
            (sw / scaleFor sw sh) (sh / scaleFor sw sh))
    (hτ : τ ≤ 1) :
    pyramid_match src sw sh src sw sh τ = some ⟨0, 0, 1⟩ := by
  unfold pyramid_match
  rw [if_neg (by omega)]
  by_cases hs : 4 ≤ scaleFor sw sh
  · rw [if_pos hs]
    have hlen : (downsample src sw sh (scaleFor sw sh)).1.length
        = (sw / scaleFor sw sh) * (sh / scaleFor sw sh) :=
      downsample_length src sw sh (scaleFor sw sh)
    have hτc : τ * 0.5 ≤ 1 := by nlinarith
    rw [search_best_self (downsample src sw sh (scaleFor sw sh)).1
      (sw / scaleFor sw sh) (sh / scaleFor sw sh) (τ * 0.5) hlen (hcoarse hs) hτc]
    show search_region src sw sh (Template.new src sw sh)
      (refineRect sw sh sw sh (scaleFor sw sh) 0 0).1
      (refineRect sw sh sw sh (scaleFor sw sh) 0 0).2.1
      (refineRect sw sh sw sh (scaleFor sw sh) 0 0).2.2.1
      (refineRect sw sh sw sh (scaleFor sw sh) 0 0).2.2.2 τ = some ⟨0, 0, 1⟩
    have hrect : refineRect sw sh sw sh (scaleFor sw sh) 0 0 = (0, 0, 0, 0) := by
      unfold refineRect
      simp [Nat.sub_self]
    rw [hrect]
    exact search_region_self src sw sh τ hsrc hv hτ
  · rw [if_neg hs]
    exact search_best_self src sw sh τ hsrc hv hτ

end RustMatch

namespace RustMatch

theorem C2_self_match_amended_witness :
    pair21.length = 2 * 1 ∧ 1 ≤ bufVar pair21 2 1 ∧ (1/2 : ℝ) ≤ 1 ∧
    pyramid_match pair21 2 1 pair21 2 1 (1/2) = some ⟨0, 0, 1⟩ :=
  ⟨rfl, by norm_num [bufVar, bufMean, bufSqSum, pair21],
   by norm_num,
   C2_self_match_amended pair21 2 1 (1/2) rfl
     (by norm_num [bufVar, bufMean, bufSqSum, pair21])
     (fun h => absurd h (by decide))
     (by norm_num)⟩

/-- C2 (counterexample): `src4` is non-uniform and `0.5 ≤ 1.0`, yet
`findSingle(src4, src4, 0.5)` returns none (the 4x4 window variance is
`15/256 < 1.0`, so the NCC score is 0), refuting the claim that any
non-uniform source self-matches with confidence about 1. -/
theorem C2_counterexample :
    src4.getD 0 0 ≠ src4.getD 1 0 ∧ (1/2 : ℝ) ≤ 1 ∧
    pyramid_match src4 4 4 src4 4 4 (1/2) = none := by
  refine ⟨by norm_num [src4], by norm_num, ?_⟩
  unfold pyramid_match
  rw [if_neg (by omega)]
  rw [if_neg (by decide : ¬ 4 ≤ scaleFor 4 4)]
  exact search_best_self_flat src4 4 4 (1/2) rfl
    (by norm_num [bufVar, bufMean, bufSqSum, src4]) (by norm_num)

end RustMatch

namespace RustMatch

/-! ## Claims C7 and C8 -/

/-- C7: whenever the template exceeds the source in any dimension,
`findSingle` returns none and `findAll` returns an empty list. -/
theorem C7_template_exceeds (src tpl_data : List ℚ) (sw sh tw th : ℕ) (τ : ℝ) (K : ℕ)
    (h : tw > sw ∨ th > sh) :
    pyramid_match src sw sh tpl_data tw th τ = none ∧
    match_multi src sw sh tpl_data tw th τ K = [] := by
  unfold pyramid_match match_multi
  rw [if_pos h, if_pos h]
  exact ⟨rfl, rfl⟩

theorem C7_template_exceeds_witness :
    ((2 > 1 ∨ 2 > 1) ∧
      pyramid_match [0] 1 1 [0, 0, 0, 0] 2 2 0.8 = none ∧
      match_multi [0] 1 1 [0, 0, 0, 0] 2 2 0.8 10 = []) :=
  ⟨Or.inl (by norm_num),
   C7_template_exceeds [0] [0, 0, 0, 0] 1 1 2 2 0.8 10 (Or.inl (by norm_num))⟩

/-- C8: every NCC confidence lies in `[-1, 1]` in exact arithmetic, and
consequently `findSingle` with a threshold above 1.0 returns none. -/
theorem C8_confidence_bounds (src tpl_data : List ℚ) (sw sh tw th x y : ℕ) (τ : ℝ)
    (htpl : tpl_data.length = tw * th) (hx : x + tw ≤ sw) (hy : y + th ≤ sh) (hτ : 1 < τ) :
    -1 ≤ compute_ncc src sw (IntegralImage.new src sw sh) (Template.new tpl_data tw th) x y ∧
    compute_ncc src sw (IntegralImage.new src sw sh) (Template.new tpl_data tw th) x y ≤ 1 ∧
    pyramid_match src sw sh tpl_data tw th τ = none :=
  ⟨(abs_le.mp (ncc_abs_le src tpl_data sw sh tw th x y htpl)).1,
   (abs_le.mp (ncc_abs_le src tpl_data sw sh tw th x y htpl)).2,
   pyramid_none_of_gt_one src tpl_data sw sh tw th τ htpl hτ⟩

theorem C8_confidence_bounds_witness :
    (([0] : List ℚ).length = 1 * 1 ∧ 0 + 1 ≤ 2 ∧ 0 + 1 ≤ 2 ∧ (1 : ℝ) < 2) ∧
    (-1 ≤ compute_ncc [0, 0, 0, 0] 2 (IntegralImage.new [0, 0, 0, 0] 2 2)
        (Template.new [0] 1 1) 0 0 ∧
      compute_ncc [0, 0, 0, 0] 2 (IntegralImage.new [0, 0, 0, 0] 2 2)
        (Template.new [0] 1 1) 0 0 ≤ 1 ∧
      pyramid_match [0, 0, 0, 0] 2 2 [0] 1 1 2 = none) :=
  ⟨⟨rfl, by norm_num, by norm_num, by norm_num⟩,
   C8_confidence_bounds [0, 0, 0, 0] [0] 2 2 1 1 0 0 2 rfl
     (by norm_num) (by norm_num) (by norm_num)⟩

/-! ## Claim C10: the pyramid scale -/

theorem nextPow2Aux_ge : ∀ fuel n : ℕ, n ≤ fuel + 1 → n ≤ nextPow2Aux fuel n := by
  intro fuel
  induction fuel with
  | zero => intro n hn; unfold nextPow2Aux; omega
  | succ fuel ih =>
    intro n hn
    unfold nextPow2Aux
    by_cases h1 : n ≤ 1
    · rw [if_pos h1]; omega
    · rw [if_neg h1]
      have hrec := ih ((n + 1) / 2) (by omega)
      omega

theorem nextPow2_ge (n : ℕ) : n ≤ nextPow2 n := by
  unfold nextPow2
  rcases Nat.eq_zero_or_pos n with h | h
  · subst h; unfold nextPow2Aux; omega
  · exact nextPow2Aux_ge (n - 1).succ n (by omega) |>.trans_eq (by congr 1; omega) |>.trans_eq rfl

theorem nextPow2Aux_pow : ∀ fuel n : ℕ, ∃ k, nextPow2Aux fuel n = 2 ^ k := by
  intro fuel
  induction fuel with
  | zero => intro n; exact ⟨0, rfl⟩
  | succ fuel ih =>
    intro n
    unfold nextPow2Aux
    by_cases h1 : n ≤ 1
    · rw [if_pos h1]; exact ⟨0, rfl⟩
    · rw [if_neg h1]
      obtain ⟨k, hk⟩ := ih ((n + 1) / 2)
      exact ⟨k + 1, by rw [hk]; ring⟩

theorem nextPow2_pow (n : ℕ) : ∃ k, nextPow2 n = 2 ^ k := nextPow2Aux_pow n n

/-- C10: the code's scale (cap, then round up) agrees with the spec's
procedure (round up, then cap), and is a power of two between 1 and 8. -/
theorem C10_scale_formula (tw th : ℕ) :
    scaleFor tw th = specScale tw th ∧ (∃ k, scaleFor tw th = 2 ^ k) ∧
    1 ≤ scaleFor tw th ∧ scaleFor tw th ≤ 8 := by
  have main : ∀ m : ℕ, (nextPow2 (min m 8)).max 1 = (min (nextPow2 m) 8).max 1 ∧
      (nextPow2 (min m 8)).max 1 ≤ 8 := by
    intro m
    by_cases hm : m ≤ 8
    · interval_cases m <;> exact ⟨by decide, by decide⟩
    · have h8 : min m 8 = 8 := by omega
      have hge : 9 ≤ nextPow2 m := le_trans (by omega) (nextPow2_ge m)
      have h8' : min (nextPow2 m) 8 = 8 := by omega
      rw [h8, h8']
      exact ⟨by decide, by decide⟩
  have hpow : ∃ k, scaleFor tw th = 2 ^ k := by
    obtain ⟨k, hk⟩ := nextPow2_pow (min (min tw th / 16) 8)
    refine ⟨k, ?_⟩
    unfold scaleFor
    rw [hk]
    exact Nat.max_eq_left (Nat.one_le_two_pow)
  refine ⟨?_, hpow, le_max_right _ _, (main (min tw th / 16)).2⟩
  unfold scaleFor specScale
  exact (main (min tw th / 16)).1

theorem scaleFor_ge_four {tw th : ℕ} (h : 64 ≤ min tw th) : 4 ≤ scaleFor tw th := by
  unfold scaleFor
  have h4 : 4 ≤ min tw th / 16 := by omega
  have : min (min tw th / 16) 8 = min (min tw th / 16) 8 := rfl
  set j := min (min tw th / 16) 8 with hj
  have hj4 : 4 ≤ j ∧ j ≤ 8 := by omega
  obtain ⟨hj1, hj2⟩ := hj4
  interval_cases j <;> decide

theorem scaleFor_pos (tw th : ℕ) : 1 ≤ scaleFor tw th := le_max_right _ _

end RustMatch

namespace RustMatch

/-! ## Claim C5: integral image correctness -/

/-- C5: `getStats(x, y, w, h)` returns exactly the sum and sum of squares of
the `w x h` rectangle at `(x, y)`; the full-rectangle query equals the total
pixel sum of the source. -/
theorem C5_get_stats_exact (data : List ℚ) (W H x y w h : ℕ)
    (hlen : data.length = W * H) (hx : x + w ≤ W) (hy : y + h ≤ H) :
    (IntegralImage.new data W H).get_stats x y w h =
      (∑ j ∈ Finset.range h, ∑ i ∈ Finset.range w, px data W (y + j) (x + i),
       ∑ j ∈ Finset.range h, ∑ i ∈ Finset.range w,
         px data W (y + j) (x + i) * px data W (y + j) (x + i)) ∧
    ((IntegralImage.new data W H).get_stats 0 0 W H).1 = data.sum := by
  refine ⟨get_stats_eq data W H x y w h, ?_⟩
  rw [get_stats_window]
  exact windowSum_full data W H hlen

theorem C5_get_stats_exact_witness :
    (([1, 2, 3, 4] : List ℚ).length = 2 * 2 ∧ 0 + 2 ≤ 2 ∧ 0 + 2 ≤ 2) ∧
    ((IntegralImage.new [1, 2, 3, 4] 2 2).get_stats 0 0 2 2 =
      (∑ j ∈ Finset.range 2, ∑ i ∈ Finset.range 2, px [1, 2, 3, 4] 2 (0 + j) (0 + i),
       ∑ j ∈ Finset.range 2, ∑ i ∈ Finset.range 2,
         px [1, 2, 3, 4] 2 (0 + j) (0 + i) * px [1, 2, 3, 4] 2 (0 + j) (0 + i)) ∧
     ((IntegralImage.new [1, 2, 3, 4] 2 2).get_stats 0 0 2 2).1 = ([1, 2, 3, 4] : List ℚ).sum) :=
  ⟨⟨rfl, by norm_num, by norm_num⟩,
   C5_get_stats_exact [1, 2, 3, 4] 2 2 0 0 2 2 rfl (by norm_num) (by norm_num)⟩

/-! ## Claim C4: the NCC primitive computes the Pearson correlation -/

/-- C4: for an admissible alignment, `compute_ncc` returns 0 when the window
variance `Q/N - (S/N)^2` is below 1, and otherwise returns the Pearson
correlation `(1/N) * sum((s - mean_s) * (t - mean_t)) / (sigma_s * sigma_t)`,
with `sigma_s = sqrt(var_s)` and `sigma_t` the template profile's floored
standard deviation `max(sqrt(var_t), 1e-10)`. -/
theorem C4_ncc_pearson (src tpl_data : List ℚ) (sw sh tw th x y : ℕ)
    (htpl : tpl_data.length = tw * th) (hx : x + tw ≤ sw) (hy : y + th ≤ sh) :
    (windowSqSum src sw x y tw th / ((tw * th : ℕ) : ℚ)
        - (windowSum src sw x y tw th / ((tw * th : ℕ) : ℚ))
            * (windowSum src sw x y tw th / ((tw * th : ℕ) : ℚ)) < 1 →
      compute_ncc src sw (IntegralImage.new src sw sh) (Template.new tpl_data tw th) x y = 0) ∧
    (1 ≤ windowSqSum src sw x y tw th / ((tw * th : ℕ) : ℚ)
        - (windowSum src sw x y tw th / ((tw * th : ℕ) : ℚ))
            * (windowSum src sw x y tw th / ((tw * th : ℕ) : ℚ)) →
      compute_ncc src sw (IntegralImage.new src sw sh) (Template.new tpl_data tw th) x y =
        (1 / ((tw * th : ℕ) : ℝ)) *
          ((∑ j ∈ Finset.range th, ∑ i ∈ Finset.range tw,
            (px src sw (y + j) (x + i) - windowSum src sw x y tw th / ((tw * th : ℕ) : ℚ))
              * (px tpl_data tw j i - bufMean tpl_data tw th) : ℚ) : ℝ) /
          (Real.sqrt ((windowSqSum src sw x y tw th / ((tw * th : ℕ) : ℚ)
            - (windowSum src sw x y tw th / ((tw * th : ℕ) : ℚ))
                * (windowSum src sw x y tw th / ((tw * th : ℕ) : ℚ)) : ℚ) : ℝ)
            * max (Real.sqrt ((bufVar tpl_data tw th : ℚ) : ℝ)) (1 / 10 ^ 10))) := by
  have hsv := sVar_eq src sw sh x y tw th tpl_data
  constructor
  · intro hlt
    unfold compute_ncc
    rw [hsv, if_pos hlt]
  · intro hge
    have hN : tw * th ≠ 0 := by
      intro h0
      rw [← hsv] at hge
      rw [sVar_zero_of_n_zero src sw sh x y tw th tpl_data h0] at hge
      norm_num at hge
    unfold compute_ncc
    rw [hsv, if_neg (not_lt.mpr hge)]
    rw [cross_eq src sw sh x y tw th tpl_data htpl]
    rw [show (Template.new tpl_data tw th).inv_std_n
        = 1 / (max (Real.sqrt ((bufVar tpl_data tw th : ℚ) : ℝ)) (1 / 10 ^ 10)
            * ((tw * th : ℕ) : ℝ)) from rfl]
    have h1R : (1 : ℝ) ≤ ((windowSqSum src sw x y tw th / ((tw * th : ℕ) : ℚ)
        - (windowSum src sw x y tw th / ((tw * th : ℕ) : ℚ))
            * (windowSum src sw x y tw th / ((tw * th : ℕ) : ℚ)) : ℚ) : ℝ) := by
      exact_mod_cast hge
    have hsq : (0 : ℝ) < Real.sqrt ((windowSqSum src sw x y tw th / ((tw * th : ℕ) : ℚ)
        - (windowSum src sw x y tw th / ((tw * th : ℕ) : ℚ))
            * (windowSum src sw x y tw th / ((tw * th : ℕ) : ℚ)) : ℚ) : ℝ) :=
      Real.sqrt_pos.mpr (by linarith)
    have hmx : (0 : ℝ) < max (Real.sqrt ((bufVar tpl_data tw th : ℚ) : ℝ)) (1 / 10 ^ 10) :=
      lt_of_lt_of_le (by norm_num) (le_max_right _ _)
    have hNR : ((tw * th : ℕ) : ℝ) ≠ 0 := by
      exact_mod_cast Nat.cast_ne_zero.mpr hN
    have halg : ∀ c n m q : ℝ, q ≠ 0 → m ≠ 0 → n ≠ 0 →
        c * (1 / (m * n)) / q = 1 / n * c / (q * m) := by
      intro c n m q h1 h2 h3
      field_simp
      left
      ring
    exact halg _ _ _ _ (ne_of_gt hsq) (ne_of_gt hmx) hNR

theorem C4_ncc_pearson_witness :
    (([0] : List ℚ).length = 1 * 1 ∧ 0 + 1 ≤ 2 ∧ 0 + 1 ≤ 2) ∧
    ((windowSqSum [0, 0, 0, 0] 2 0 0 1 1 / ((1 * 1 : ℕ) : ℚ)
        - (windowSum [0, 0, 0, 0] 2 0 0 1 1 / ((1 * 1 : ℕ) : ℚ))
            * (windowSum [0, 0, 0, 0] 2 0 0 1 1 / ((1 * 1 : ℕ) : ℚ)) < 1 →
      compute_ncc [0, 0, 0, 0] 2 (IntegralImage.new [0, 0, 0, 0] 2 2)
        (Template.new [0] 1 1) 0 0 = 0) ∧
    (1 ≤ windowSqSum [0, 0, 0, 0] 2 0 0 1 1 / ((1 * 1 : ℕ) : ℚ)
        - (windowSum [0, 0, 0, 0] 2 0 0 1 1 / ((1 * 1 : ℕ) : ℚ))
            * (windowSum [0, 0, 0, 0] 2 0 0 1 1 / ((1 * 1 : ℕ) : ℚ)) →
      compute_ncc [0, 0, 0, 0] 2 (IntegralImage.new [0, 0, 0, 0] 2 2)
        (Template.new [0] 1 1) 0 0 =
        (1 / ((1 * 1 : ℕ) : ℝ)) *
          ((∑ j ∈ Finset.range 1, ∑ i ∈ Finset.range 1,
            (px [0, 0, 0, 0] 2 (0 + j) (0 + i)
              - windowSum [0, 0, 0, 0] 2 0 0 1 1 / ((1 * 1 : ℕ) : ℚ))
              * (px [0] 1 j i - bufMean [0] 1 1) : ℚ) : ℝ) /
          (Real.sqrt ((windowSqSum [0, 0, 0, 0] 2 0 0 1 1 / ((1 * 1 : ℕ) : ℚ)
            - (windowSum [0, 0, 0, 0] 2 0 0 1 1 / ((1 * 1 : ℕ) : ℚ))
                * (windowSum [0, 0, 0, 0] 2 0 0 1 1 / ((1 * 1 : ℕ) : ℚ)) : ℚ) : ℝ)
            * max (Real.sqrt ((bufVar [0] 1 1 : ℚ) : ℝ)) (1 / 10 ^ 10)))) :=
  ⟨⟨rfl, by norm_num, by norm_num⟩,
   C4_ncc_pearson [0, 0, 0, 0] [0] 2 2 1 1 0 0 rfl (by norm_num) (by norm_num)⟩

end RustMatch

namespace RustMatch

/-! ## Claims C1 and C6: the multi-match pipeline -/

theorem nmsLoop_length_le (tw th K : ℕ) :
    ∀ (l acc : List MatchResult), (nmsLoop tw th K l acc).length ≤ max K (acc.length + 1) := by
  intro l
  induction l with
  | nil => intro acc; simp [nmsLoop]
  | cons r rest ih =>
    intro acc
    unfold nmsLoop
    by_cases ho : acc.any (overlapsB tw th r) = true
    · rw [if_pos ho]
      exact ih acc
    · rw [if_neg ho]
      by_cases hk : K ≤ acc.length + 1
      · rw [if_pos hk]
        simp
      · rw [if_neg hk]
        have h2 := ih (acc ++ [r])
        have h3 : (acc ++ [r]).length = acc.length + 1 := by simp
        rw [h3] at h2
        omega

/-- C1 (amended): `findAll(..., maxCount=K)` returns at most `max(K, 1)`
matches: at most `K` whenever `K ≥ 1`, but for `K = 0` one match can still
be returned, because the suppression loop pushes a result before checking
`filtered.len() >= max_count`. -/
theorem C1_at_most_max_count (src tpl_data : List ℚ) (sw sh tw th : ℕ) (τ : ℝ) (K : ℕ) :
    (match_multi src sw sh tpl_data tw th τ K).length ≤ max K 1 := by
  unfold match_multi
  by_cases hg : tw > sw ∨ th > sh
  · rw [if_pos hg]; simp
  · rw [if_neg hg]
    have := nmsLoop_length_le tw th K
      ((multiResults src sw (IntegralImage.new src sw sh) (Template.new tpl_data tw th)
          (sw - tw) (sh - th) τ).mergeSort
        fun a b => decide (b.confidence ≤ a.confidence)) []
    simpa using this

theorem getD_zeros4 : ∀ n : ℕ, ([0, 0, 0, 0] : List ℚ).getD n 0 = 0 := by
  intro n
  rcases n with _ | _ | _ | _ | n <;> simp [List.getD]

theorem ncc_zeros4 (x y : ℕ) :
    compute_ncc [0, 0, 0, 0] 2 (IntegralImage.new [0, 0, 0, 0] 2 2)
      (Template.new [0] 1 1) x y = 0 := by
  have hpx : ∀ a b : ℕ, px ([0, 0, 0, 0] : List ℚ) 2 a b = 0 := fun a b => getD_zeros4 _
  have hsv : sVar (IntegralImage.new [0, 0, 0, 0] 2 2) (Template.new [0] 1 1) x y = 0 := by
    rw [sVar_eq [0, 0, 0, 0] 2 2 x y 1 1 [0]]
    unfold windowSum windowSqSum
    simp [hpx]
  unfold compute_ncc
  rw [hsv, if_pos (by norm_num)]

/-- C1 (counterexample): with a uniform 2x2 source, a 1x1 template and
threshold 0, `findAll(..., maxCount=0)` returns one match, not an empty
list: the NMS loop pushes the first accepted result before testing
`filtered.len() >= max_count`. -/
theorem C1_counterexample :
    (match_multi [0, 0, 0, 0] 2 2 [0] 1 1 0 0).length = 1 := by
  unfold match_multi
  rw [if_neg (by omega)]
  have hcand : candidates [0, 0, 0, 0] 2 (IntegralImage.new [0, 0, 0, 0] 2 2)
      (Template.new [0] 1 1) (2 - 1) (2 - 1) 0 = [(0, 0, 0)] := by
    unfold candidates
    rw [show sweepPositions (2 - 1) (2 - 1) = [(0, 0)] from rfl]
    simp only [List.filterMap_cons, List.filterMap_nil, ncc_zeros4]
    rw [if_pos (by norm_num)]
  have hrefine : refineCandidate [0, 0, 0, 0] 2 (IntegralImage.new [0, 0, 0, 0] 2 2)
      (Template.new [0] 1 1) (2 - 1) (2 - 1) (0, 0, 0) = (0, 0, 0) := by
    unfold refineCandidate
    rw [show refinePositions 0 0 (2 - 1) (2 - 1) = [(0, 0), (1, 0), (0, 1), (1, 1)] from rfl]
    simp only [bestFold, List.foldl_cons, List.foldl_nil, ncc_zeros4]
    norm_num
  have hres : multiResults [0, 0, 0, 0] 2 (IntegralImage.new [0, 0, 0, 0] 2 2)
      (Template.new [0] 1 1) (2 - 1) (2 - 1) 0 = [⟨0, 0, 0⟩] := by
    unfold multiResults
    rw [hcand]
    simp only [List.filterMap_cons, List.filterMap_nil, hrefine]
    rw [if_pos (by norm_num)]
  rw [hres]
  rw [show (([⟨0, 0, 0⟩] : List MatchResult).mergeSort
      fun a b => decide (b.confidence ≤ a.confidence)) = [⟨0, 0, 0⟩] from
    List.mergeSort_singleton _]
  unfold nmsLoop
  rw [if_neg (by simp)]
  rw [if_pos (by simp)]
  rfl

end RustMatch

namespace RustMatch

theorem nmsLoop_append (tw th K : ℕ) :
    ∀ (l acc : List MatchResult), ∃ t, nmsLoop tw th K l acc = acc ++ t ∧ t.Sublist l := by
  intro l
  induction l with
  | nil => intro acc; exact ⟨[], by simp [nmsLoop], List.nil_sublist _⟩
  | cons r rest ih =>
    intro acc
    unfold nmsLoop
    by_cases ho : acc.any (overlapsB tw th r) = true
    · rw [if_pos ho]
      obtain ⟨t, h1, h2⟩ := ih acc
      exact ⟨t, h1, h2.cons r⟩
    · rw [if_neg ho]
      by_cases hk : K ≤ acc.length + 1
      · rw [if_pos hk]
        exact ⟨[r], rfl, (List.nil_sublist rest).cons₂ r⟩
      · rw [if_neg hk]
        obtain ⟨t, h1, h2⟩ := ih (acc ++ [r])
        refine ⟨r :: t, ?_, h2.cons₂ r⟩
        rw [h1, List.append_assoc]
        rfl

theorem overlapsB_false_sep {tw th : ℕ} {r f : MatchResult}
    (h : overlapsB tw th r f = false) : separated tw th f r := by
  unfold overlapsB at h
  rw [Bool.and_eq_false_iff] at h
  unfold separated
  have hx : ((f.x : ℤ) - (r.x : ℤ)).natAbs = ((r.x : ℤ) - (f.x : ℤ)).natAbs := by
    rw [← Int.natAbs_neg, neg_sub]
  have hy : ((f.y : ℤ) - (r.y : ℤ)).natAbs = ((r.y : ℤ) - (f.y : ℤ)).natAbs := by
    rw [← Int.natAbs_neg, neg_sub]
  rcases h with h | h
  · left
    rw [hx]
    have := of_decide_eq_false h
    omega
  · right
    rw [hy]
    have := of_decide_eq_false h
    omega

theorem nmsLoop_pairwise (tw th K : ℕ) :
    ∀ (l acc : List MatchResult), acc.Pairwise (separated tw th) →
      (nmsLoop tw th K l acc).Pairwise (separated tw th) := by
  intro l
  induction l with
  | nil => intro acc hacc; simpa [nmsLoop] using hacc
  | cons r rest ih =>
    intro acc hacc
    unfold nmsLoop
    by_cases ho : acc.any (overlapsB tw th r) = true
    · rw [if_pos ho]
      exact ih acc hacc
    · rw [if_neg ho]
      have hsep : ∀ a ∈ acc, separated tw th a r := by
        intro a ha
        refine overlapsB_false_sep ?_
        have := List.any_eq_false.mp (Bool.eq_false_iff.mpr ho) a ha
        exact Bool.eq_false_iff.mpr this
      have hpush : (acc ++ [r]).Pairwise (separated tw th) := by
        rw [List.pairwise_append]
        exact ⟨hacc, List.pairwise_singleton _ _, fun a ha b hb => by
          rw [List.mem_singleton.mp hb]; exact hsep a ha⟩
      by_cases hk : K ≤ acc.length + 1
      · rw [if_pos hk]
        exact hpush
      · rw [if_neg hk]
        exact ih (acc ++ [r]) hpush

/-- C6: every `findAll` result list is sorted by confidence descending, and
every pair of returned matches is separated by at least half the template
size in x or in y. -/
theorem C6_sorted_and_separated (src tpl_data : List ℚ) (sw sh tw th : ℕ) (τ : ℝ) (K : ℕ) :
    (match_multi src sw sh tpl_data tw th τ K).Pairwise
      (fun a b => b.confidence ≤ a.confidence) ∧
    (match_multi src sw sh tpl_data tw th τ K).Pairwise (separated tw th) := by
  unfold match_multi
  by_cases hg : tw > sw ∨ th > sh
  · rw [if_pos hg]
    exact ⟨List.Pairwise.nil, List.Pairwise.nil⟩
  · rw [if_neg hg]
    constructor
    · have hsorted : ((multiResults src sw (IntegralImage.new src sw sh)
          (Template.new tpl_data tw th) (sw - tw) (sh - th) τ).mergeSort
            fun a b => decide (b.confidence ≤ a.confidence)).Pairwise
          (fun a b => (fun a b => decide (b.confidence ≤ a.confidence)) a b = true) := by
        refine List.sorted_mergeSort ?_ ?_ _
        · intro a b c hab hbc
          simp only [decide_eq_true_eq] at hab hbc ⊢
          exact le_trans hbc hab
        · intro a b
          simp only [Bool.or_eq_true, decide_eq_true_eq]
          exact le_total b.confidence a.confidence
      obtain ⟨t, h1, h2⟩ := nmsLoop_append tw th K
        ((multiResults src sw (IntegralImage.new src sw sh)
          (Template.new tpl_data tw th) (sw - tw) (sh - th) τ).mergeSort
            fun a b => decide (b.confidence ≤ a.confidence)) []
      rw [h1, List.nil_append]
      have := List.Pairwise.sublist h2 hsorted
      exact this.imp fun h => of_decide_eq_true h
    · exact nmsLoop_pairwise tw th K _ [] List.Pairwise.nil

end RustMatch

namespace RustMatch

/-! ## Claim C9: every evaluated alignment is in bounds -/

theorem refineRect_bounds {sw sh tw th scale cx cy : ℕ}
    (hw : tw ≤ sw) (hh : th ≤ sh) (hs : 1 ≤ scale)
    (hcx : cx ≤ sw / scale - tw / scale) (hcy : cy ≤ sh / scale - th / scale) :
    (refineRect sw sh tw th scale cx cy).1 ≤ (refineRect sw sh tw th scale cx cy).2.2.1 ∧
    (refineRect sw sh tw th scale cx cy).2.2.1 ≤ sw - tw ∧
    (refineRect sw sh tw th scale cx cy).2.1 ≤ (refineRect sw sh tw th scale cx cy).2.2.2 ∧
    (refineRect sw sh tw th scale cx cy).2.2.2 ≤ sh - th := by
  unfold refineRect
  simp only
  have key : ∀ c dimS dimT : ℕ, dimT ≤ dimS → c ≤ dimS / scale - dimT / scale →
      c * scale - scale * 4 ≤ min (c * scale + scale * 4) (dimS - dimT) ∧
      min (c * scale + scale * 4) (dimS - dimT) ≤ dimS - dimT := by
    intro c dimS dimT hdim hc
    refine ⟨le_min (by omega) ?_, min_le_right _ _⟩
    have h1 : c * scale ≤ (dimS / scale - dimT / scale) * scale :=
      Nat.mul_le_mul_right scale hc
    have h2 : (dimS / scale - dimT / scale) * scale
        = dimS / scale * scale - dimT / scale * scale := Nat.sub_mul _ _ _
    have h3 : dimS / scale * scale ≤ dimS := Nat.div_mul_le_self _ _
    have h4 : scale * (dimT / scale) + dimT % scale = dimT := Nat.div_add_mod _ _
    have h5 : dimT % scale < scale := Nat.mod_lt _ (by omega)
    have h6 : scale * (dimT / scale) = dimT / scale * scale := Nat.mul_comm _ _
    set A := c * scale with hA
    set B := (dimS / scale - dimT / scale) * scale with hB
    set C := dimS / scale * scale with hC
    set D := dimT / scale * scale with hD
    rw [h6] at h4
    omega
  exact ⟨(key cx sw tw hw hcx).1, (key cx sw tw hw hcx).2,
         (key cy sh th hh hcy).1, (key cy sh th hh hcy).2⟩

/-- C9: on well-formed inputs every alignment at which any strategy evaluates
`compute_ncc` satisfies `x + w ≤ W` and `y + h ≤ H`: the full-search rows, the
multi-match strided sweep and refinement blocks, and the pyramid refinement
rectangle (which satisfies `x1 ≤ x2 ≤ W - w`, `y1 ≤ y2 ≤ H - h` for any coarse
result, whose coordinates `search_best` indeed bounds by its alignment range). -/
theorem C9_alignments_in_bounds (sw sh tw th cx cy ax ay : ℕ)
    (s' : List ℚ) (sw' sh' : ℕ) (tpl' : Template) (τ' : ℝ) (m : MatchResult)
    (hw : tw ≤ sw) (hh : th ≤ sh)
    (hcx : cx ≤ sw / scaleFor tw th - tw / scaleFor tw th)
    (hcy : cy ≤ sh / scaleFor tw th - th / scaleFor tw th)
    (hm : search_best s' sw' sh' tpl' τ' = some m) :
    ((List.range (sh - th + 1)).all fun y =>
        (rowPositions (sw - tw) y).all fun p => decide (p.1 + tw ≤ sw ∧ p.2 + th ≤ sh)) = true ∧
    ((sweepPositions (sw - tw) (sh - th)).all fun p =>
        decide (p.1 + tw ≤ sw ∧ p.2 + th ≤ sh)) = true ∧
    ((refinePositions ax ay (sw - tw) (sh - th)).all fun p =>
        decide (p.1 + tw ≤ sw ∧ p.2 + th ≤ sh)) = true ∧
    ((refineRect sw sh tw th (scaleFor tw th) cx cy).1
        ≤ (refineRect sw sh tw th (scaleFor tw th) cx cy).2.2.1 ∧
      (refineRect sw sh tw th (scaleFor tw th) cx cy).2.2.1 ≤ sw - tw ∧
      (refineRect sw sh tw th (scaleFor tw th) cx cy).2.1
        ≤ (refineRect sw sh tw th (scaleFor tw th) cx cy).2.2.2 ∧
      (refineRect sw sh tw th (scaleFor tw th) cx cy).2.2.2 ≤ sh - th) ∧
    ((regionPositions (refineRect sw sh tw th (scaleFor tw th) cx cy).1
        (refineRect sw sh tw th (scaleFor tw th) cx cy).2.1
        (refineRect sw sh tw th (scaleFor tw th) cx cy).2.2.1
        (refineRect sw sh tw th (scaleFor tw th) cx cy).2.2.2).all
          fun p => decide (p.1 + tw ≤ sw ∧ p.2 + th ≤ sh)) = true ∧
    (m.x ≤ sw' - tpl'.width ∧ m.y ≤ sh' - tpl'.height) := by
  have hrect := refineRect_bounds hw hh (scaleFor_pos tw th) hcx hcy
  refine ⟨?_, ?_, ?_, hrect, ?_, search_best_mem hm⟩
  · rw [List.all_eq_true]
    intro y hy
    rw [List.all_eq_true]
    intro p hp
    obtain ⟨h1, h2⟩ := mem_rowPositions.mp hp
    have hy' := List.mem_range.mp hy
    rw [decide_eq_true_eq]
    omega
  · rw [List.all_eq_true]
    intro p hp
    obtain ⟨xi, yi, h1, h2, rfl⟩ := mem_sweepPositions.mp hp
    rw [decide_eq_true_eq]
    constructor
    · have : xi * 2 ≤ (sw - tw) / 2 * 2 := by omega
      have h3 : (sw - tw) / 2 * 2 ≤ sw - tw := by omega
      omega
    · have : yi * 2 ≤ (sh - th) / 2 * 2 := by omega
      have h3 : (sh - th) / 2 * 2 ≤ sh - th := by omega
      omega
  · rw [List.all_eq_true]
    intro p hp
    obtain ⟨h1, h2⟩ := mem_refinePositions hp
    rw [decide_eq_true_eq]
    omega
  · rw [List.all_eq_true]
    intro p hp
    obtain ⟨h1, h2, h3, h4⟩ := mem_regionPositions.mp hp
    rw [decide_eq_true_eq]
    obtain ⟨k1, k2, k3, k4⟩ := hrect
    omega

end RustMatch

namespace RustMatch

theorem C9_alignments_in_bounds_witness :
    ((1 ≤ 2) ∧ (0 ≤ 2 / scaleFor 1 1 - 1 / scaleFor 1 1) ∧
      search_best pair21 2 1 (Template.new pair21 2 1) (1/2) = some ⟨0, 0, 1⟩) ∧
    (((List.range (2 - 1 + 1)).all fun y =>
        (rowPositions (2 - 1) y).all fun p => decide (p.1 + 1 ≤ 2 ∧ p.2 + 1 ≤ 2)) = true ∧
    ((sweepPositions (2 - 1) (2 - 1)).all fun p =>
        decide (p.1 + 1 ≤ 2 ∧ p.2 + 1 ≤ 2)) = true ∧
    ((refinePositions 0 0 (2 - 1) (2 - 1)).all fun p =>
        decide (p.1 + 1 ≤ 2 ∧ p.2 + 1 ≤ 2)) = true ∧
    ((refineRect 2 2 1 1 (scaleFor 1 1) 0 0).1
        ≤ (refineRect 2 2 1 1 (scaleFor 1 1) 0 0).2.2.1 ∧
      (refineRect 2 2 1 1 (scaleFor 1 1) 0 0).2.2.1 ≤ 2 - 1 ∧
      (refineRect 2 2 1 1 (scaleFor 1 1) 0 0).2.1
        ≤ (refineRect 2 2 1 1 (scaleFor 1 1) 0 0).2.2.2 ∧
      (refineRect 2 2 1 1 (scaleFor 1 1) 0 0).2.2.2 ≤ 2 - 1) ∧
    ((regionPositions (refineRect 2 2 1 1 (scaleFor 1 1) 0 0).1
        (refineRect 2 2 1 1 (scaleFor 1 1) 0 0).2.1
        (refineRect 2 2 1 1 (scaleFor 1 1) 0 0).2.2.1
        (refineRect 2 2 1 1 (scaleFor 1 1) 0 0).2.2.2).all
          fun p => decide (p.1 + 1 ≤ 2 ∧ p.2 + 1 ≤ 2)) = true ∧
    ((⟨0, 0, 1⟩ : MatchResult).x ≤ 2 - (Template.new pair21 2 1).width ∧
      (⟨0, 0, 1⟩ : MatchResult).y ≤ 1 - (Template.new pair21 2 1).height)) :=
  ⟨⟨by norm_num, by decide,
    search_best_self pair21 2 1 (1/2) rfl
      (by norm_num [bufVar, bufMean, bufSqSum, pair21]) (by norm_num)⟩,
   C9_alignments_in_bounds 2 2 1 1 0 0 0 0 pair21 2 1 (Template.new pair21 2 1) (1/2)
     ⟨0, 0, 1⟩ (by norm_num) (by norm_num) (by decide) (by decide)
     (search_best_self pair21 2 1 (1/2) rfl
       (by norm_num [bufVar, bufMean, bufSqSum, pair21]) (by norm_num))⟩

/-! ## Claim C3: pyramid vs full search -/

theorem sum_ite_parity (c : ℚ) (a : ℕ) :
    ∀ n, ∑ x ∈ Finset.range (2 * n), (if (a + x) % 2 = 0 then (0 : ℚ) else c)
      = (n : ℚ) * c := by
  intro n
  induction n with
  | zero => simp
  | succ n ih =>
    have h2 : 2 * (n + 1) = 2 * n + 1 + 1 := by ring
    rw [h2, Finset.sum_range_succ, Finset.sum_range_succ, ih]
    have hpar : (a + (2 * n)) % 2 = a % 2 := by omega
    have hpar2 : (a + (2 * n + 1)) % 2 = (a + 1) % 2 := by omega
    rw [hpar, hpar2]
    by_cases ha : a % 2 = 0
    · rw [if_pos ha, if_neg (by omega)]
      push_cast
      ring
    · rw [if_neg ha, if_pos (by omega)]
      push_cast
      ring

theorem stripes64_length : stripes64.length = 64 * 64 := by
  unfold stripes64
  simp

theorem stripes64_sum : stripes64.sum = 4096 := by
  unfold stripes64
  rw [sum_map_range]
  have h := sum_ite_parity 2 0 2048
  simp only [Nat.zero_add] at h
  rw [show (2 * 2048 : ℕ) = 4096 from rfl] at h
  rw [h]
  norm_num

theorem stripes64_sqsum : bufSqSum stripes64 = 8192 := by
  unfold bufSqSum stripes64
  rw [List.map_map]
  have hf : ((fun v => v * v) ∘ fun k => if k % 2 = 0 then (0 : ℚ) else 2)
      = fun k => if k % 2 = 0 then (0 : ℚ) else 4 := by
    funext k
    by_cases h : k % 2 = 0 <;> simp [h] <;> norm_num
  rw [hf, sum_map_range]
  have h := sum_ite_parity 4 0 2048
  simp only [Nat.zero_add] at h
  rw [show (2 * 2048 : ℕ) = 4096 from rfl] at h
  rw [h]
  norm_num

theorem stripes64_var : bufVar stripes64 64 64 = 1 := by
  unfold bufVar bufMean
  rw [stripes64_sum, stripes64_sqsum]
  norm_num

theorem px_stripes {a b : ℕ} (ha : a < 64) (hb : b < 64) :
    px stripes64 64 a b = if b % 2 = 0 then (0 : ℚ) else 2 := by
  unfold px stripes64
  rw [getD_map_range _ _ (show a * 64 + b < 4096 by omega)]
  have : (a * 64 + b) % 2 = b % 2 := by omega
  rw [this]

theorem ds_stripes_entry {y x : ℕ} (hy : y < 16) (hx : x < 16) :
    (∑ dy ∈ Finset.range 4, ∑ dx ∈ Finset.range 4,
      px stripes64 64 (y * 4 + dy) (x * 4 + dx)) / ((4 * 4 : ℕ) : ℚ) = 1 := by
  have hin : ∀ dy ∈ Finset.range 4, ∑ dx ∈ Finset.range 4,
      px stripes64 64 (y * 4 + dy) (x * 4 + dx) = 4 := by
    intro dy hdy
    have hdy' := Finset.mem_range.mp hdy
    have hpx : ∀ dx ∈ Finset.range 4, px stripes64 64 (y * 4 + dy) (x * 4 + dx)
        = if (x * 4 + dx) % 2 = 0 then (0 : ℚ) else 2 := by
      intro dx hdx
      have hdx' := Finset.mem_range.mp hdx
      exact px_stripes (by omega) (by omega)
    rw [Finset.sum_congr rfl hpx]
    have h4 := sum_ite_parity 2 (x * 4) 2
    rw [show (2 * 2 : ℕ) = 4 from rfl] at h4
    rw [h4]
    norm_num
  rw [Finset.sum_congr rfl hin]
  simp
  norm_num

theorem sum_map_flatMap {α β : Type} (g : α → ℚ) (f : β → List α) :
    ∀ l : List β, ((l.flatMap f).map g).sum = (l.map fun b => ((f b).map g).sum).sum := by
  intro l
  induction l with
  | nil => simp
  | cons b l ih => simp [List.flatMap_cons, List.map_append, List.sum_append, ih]

theorem ds_stripes_sum : (downsample stripes64 64 64 4).1.sum = 256 := by
  unfold downsample
  simp only
  rw [sum_flatMap]
  rw [show (64 : ℕ) / 4 = 16 from rfl, sum_map_range]
  have hrow : ∀ y ∈ Finset.range 16,
      ((List.range 16).map fun x =>
        (∑ dy ∈ Finset.range 4, ∑ dx ∈ Finset.range 4,
          px stripes64 64 (y * 4 + dy) (x * 4 + dx)) / ((4 * 4 : ℕ) : ℚ)).sum = 16 := by
    intro y hy
    have hy' := Finset.mem_range.mp hy
    rw [sum_map_range]
    have hone : ∀ x ∈ Finset.range 16,
        (∑ dy ∈ Finset.range 4, ∑ dx ∈ Finset.range 4,
          px stripes64 64 (y * 4 + dy) (x * 4 + dx)) / ((4 * 4 : ℕ) : ℚ) = 1 := by
      intro x hx
      exact ds_stripes_entry hy' (Finset.mem_range.mp hx)
    rw [Finset.sum_congr rfl hone]
    simp
  rw [Finset.sum_congr rfl hrow]
  simp
  norm_num

theorem ds_stripes_sqsum : bufSqSum (downsample stripes64 64 64 4).1 = 256 := by
  unfold bufSqSum downsample
  simp only
  rw [sum_map_flatMap]
  rw [show (64 : ℕ) / 4 = 16 from rfl, sum_map_range]
  have hrow : ∀ y ∈ Finset.range 16,
      (((List.range 16).map fun x =>
        (∑ dy ∈ Finset.range 4, ∑ dx ∈ Finset.range 4,
          px stripes64 64 (y * 4 + dy) (x * 4 + dx)) / ((4 * 4 : ℕ) : ℚ)).map
            fun v => v * v).sum = 16 := by
    intro y hy
    have hy' := Finset.mem_range.mp hy
    rw [List.map_map, sum_map_range]
    have hone : ∀ x ∈ Finset.range 16,
        ((fun v => v * v) ∘ fun x =>
          (∑ dy ∈ Finset.range 4, ∑ dx ∈ Finset.range 4,
            px stripes64 64 (y * 4 + dy) (x * 4 + dx)) / ((4 * 4 : ℕ) : ℚ)) x = 1 := by
      intro x hx
      have := ds_stripes_entry hy' (Finset.mem_range.mp hx)
      simp only [Function.comp_apply]
      rw [this]
      norm_num
    rw [Finset.sum_congr rfl hone]
    simp
  rw [Finset.sum_congr rfl hrow]
  simp
  norm_num

theorem ds_stripes_var : bufVar (downsample stripes64 64 64 4).1 16 16 = 0 := by
  unfold bufVar bufMean
  rw [ds_stripes_sum, ds_stripes_sqsum]
  norm_num

/-- C3 (counterexample): for the 64x64 stripe pattern matched against itself
(min template dimension 64, threshold 0.5), the pyramid strategy returns none
--- downsampling by 4 flattens the stripes, so the coarse stage finds nothing
--- while the full-resolution full search returns `(0, 0)` with confidence 1. -/
theorem C3_counterexample :
    64 ≤ min 64 64 ∧
    pyramid_match stripes64 64 64 stripes64 64 64 (1/2) = none ∧
    search_best stripes64 64 64 (Template.new stripes64 64 64) (1/2) = some ⟨0, 0, 1⟩ ∧
    pyramid_match stripes64 64 64 stripes64 64 64 (1/2)
      ≠ search_best stripes64 64 64 (Template.new stripes64 64 64) (1/2) := by
  have hsb : search_best stripes64 64 64 (Template.new stripes64 64 64) (1/2)
      = some ⟨0, 0, 1⟩ :=
    search_best_self stripes64 64 64 (1/2) stripes64_length
      (by rw [stripes64_var]) (by norm_num)
  have hpy : pyramid_match stripes64 64 64 stripes64 64 64 (1/2) = none := by
    unfold pyramid_match
    rw [if_neg (by omega)]
    rw [if_pos (by decide : 4 ≤ scaleFor 64 64)]
    rw [show scaleFor 64 64 = 4 from by decide]
    rw [search_best_self_flat (downsample stripes64 64 64 4).1 (64 / 4) (64 / 4)
      ((1:ℝ)/2 * 0.5) (downsample_length stripes64 64 64 4)
      (by rw [show (64:ℕ)/4 = 16 from rfl, ds_stripes_var]; norm_num) (by norm_num)]
  exact ⟨by norm_num, hpy, hsb, by rw [hpy, hsb]; simp⟩

end RustMatch

namespace RustMatch

/-- C3 (amended): for `min(w, h) ≥ 64` and threshold 0.5, the pyramid
strategy and the full-resolution full search return the same top match
(identical coordinates, exactly equal confidence), provided the coarse
stage succeeds, the refinement rectangle contains the full-resolution
best alignment, and that best alignment is unique. -/
theorem C3_pyramid_full_agree (src tpl_data : List ℚ) (sw sh tw th : ℕ)
    (coarse : MatchResult) (p : ℕ × ℕ)
    (hsrc : src.length = sw * sh) (htpl : tpl_data.length = tw * th)
    (h64 : 64 ≤ min tw th) (hw : tw ≤ sw) (hh : th ≤ sh)
    (hcoarse : search_best (downsample src sw sh (scaleFor tw th)).1
        (sw / scaleFor tw th) (sh / scaleFor tw th)
        (Template.new (downsample tpl_data tw th (scaleFor tw th)).1
          (tw / scaleFor tw th) (th / scaleFor tw th))
        ((1/2 : ℝ) * 0.5) = some coarse)
    (hadm : p.1 ≤ sw - tw ∧ p.2 ≤ sh - th)
    (hin : (refineRect sw sh tw th (scaleFor tw th) coarse.x coarse.y).1 ≤ p.1 ∧
      p.1 ≤ (refineRect sw sh tw th (scaleFor tw th) coarse.x coarse.y).2.2.1 ∧
      (refineRect sw sh tw th (scaleFor tw th) coarse.x coarse.y).2.1 ≤ p.2 ∧
      p.2 ≤ (refineRect sw sh tw th (scaleFor tw th) coarse.x coarse.y).2.2.2)
    (huniq : ∀ q : ℕ × ℕ, q.1 ≤ sw - tw → q.2 ≤ sh - th → q ≠ p →
      compute_ncc src sw (IntegralImage.new src sw sh) (Template.new tpl_data tw th) q.1 q.2
        < compute_ncc src sw (IntegralImage.new src sw sh) (Template.new tpl_data tw th) p.1 p.2) :
    pyramid_match src sw sh tpl_data tw th (1/2)
      = search_best src sw sh (Template.new tpl_data tw th) (1/2) := by
  have hs4 : 4 ≤ scaleFor tw th := scaleFor_ge_four h64
  have hcb := search_best_mem hcoarse
  have hcx : coarse.x ≤ sw / scaleFor tw th - tw / scaleFor tw th := hcb.1
  have hcy : coarse.y ≤ sh / scaleFor tw th - th / scaleFor tw th := hcb.2
  have hrect := refineRect_bounds hw hh (scaleFor_pos tw th) hcx hcy
  set v : ℝ := compute_ncc src sw (IntegralImage.new src sw sh)
    (Template.new tpl_data tw th) p.1 p.2 with hvdef
  have hv1 : -1 ≤ v := (abs_le.mp (ncc_abs_le src tpl_data sw sh tw th p.1 p.2 htpl)).1
  -- evaluate the pyramid to the region search
  have hpy : pyramid_match src sw sh tpl_data tw th (1/2)
      = search_region src sw sh (Template.new tpl_data tw th)
          (refineRect sw sh tw th (scaleFor tw th) coarse.x coarse.y).1
          (refineRect sw sh tw th (scaleFor tw th) coarse.x coarse.y).2.1
          (refineRect sw sh tw th (scaleFor tw th) coarse.x coarse.y).2.2.1
          (refineRect sw sh tw th (scaleFor tw th) coarse.x coarse.y).2.2.2 (1/2) := by
    unfold pyramid_match
    rw [if_neg (by omega), if_pos hs4, hcoarse]
  rw [hpy]
  by_cases hth : (1/2 : ℝ) ≤ v
  · -- both find p with confidence v
    have hregion : regionBest src sw sh (Template.new tpl_data tw th)
        (refineRect sw sh tw th (scaleFor tw th) coarse.x coarse.y).1
        (refineRect sw sh tw th (scaleFor tw th) coarse.x coarse.y).2.1
        (refineRect sw sh tw th (scaleFor tw th) coarse.x coarse.y).2.2.1
        (refineRect sw sh tw th (scaleFor tw th) coarse.x coarse.y).2.2.2
        = (p.1, p.2, v) := by
      unfold regionBest
      refine bestFold_unique (mem_regionPositions.mpr ⟨hin.1, hin.2.1, hin.2.2.1, hin.2.2.2⟩)
        (fun r hr hrp => ?_) _ (by simpa using lt_of_lt_of_le (by norm_num) hth)
      obtain ⟨k1, k2, k3, k4⟩ := mem_regionPositions.mp hr
      exact huniq r (by omega) (by omega) hrp
    have hfull : bestAlignment src sw sh (Template.new tpl_data tw th) = (p.1, p.2, v) := by
      rw [bestAlignment_def]
      have hrowp : rowBest src sw (IntegralImage.new src sw sh) (Template.new tpl_data tw th)
          (sw - (Template.new tpl_data tw th).width) p.2 = (p.1, p.2, v) := by
        rw [rowBest_def]
        refine bestFold_unique (mem_rowPositions.mpr ⟨?_, rfl⟩)
          (fun r hr hrp => ?_) _ (by simpa using lt_of_lt_of_le (by norm_num) hth)
        · exact hadm.1
        · obtain ⟨k1, k2⟩ := mem_rowPositions.mp hr
          refine huniq r (by
            rw [show (Template.new tpl_data tw th).width = tw from rfl] at k1
            omega) (by rw [k2]; exact hadm.2) ?_
          intro hc
          exact hrp (by rw [hc])
      refine combineFold_unique ?_ (fun r hr hrm => ?_) _ ?_
      · rw [← hrowp]
        refine List.mem_map.mpr ⟨p.2, List.mem_range.mpr ?_, rfl⟩
        rw [show (Template.new tpl_data tw th).height = th from rfl]
        omega
      · obtain ⟨y, hy, heq⟩ := List.mem_map.mp hr
        by_cases hyp : y = p.2
        · subst hyp
          exact absurd (by rw [← heq, hrowp]) hrm
        · rw [← heq]
          rcases rowBest_cases src sw (IntegralImage.new src sw sh)
              (Template.new tpl_data tw th) (sw - (Template.new tpl_data tw th).width) y with
            hcase | ⟨x, hx, hcase⟩
          · rw [hcase]
            simpa using lt_of_lt_of_le (by norm_num) hth
          · rw [hcase]
            refine huniq (x, y) (by
              rw [show (Template.new tpl_data tw th).width = tw from rfl] at hx
              omega) (by
              have := List.mem_range.mp hy
              rw [show (Template.new tpl_data tw th).height = th from rfl] at this
              simpa using by omega) ?_
            intro hc
            apply hyp
            have := congrArg Prod.snd hc
            simpa using this
      · simpa using lt_of_lt_of_le (by norm_num) hth
    unfold search_region search_best
    rw [hregion, hfull]
    rw [if_pos (by simpa using hth), if_neg (by
      rw [show (Template.new tpl_data tw th).width = tw from rfl,
          show (Template.new tpl_data tw th).height = th from rfl]
      omega)]
  · -- neither meets the threshold
    push_neg at hth
    have hall : ∀ q : ℕ × ℕ, q.1 ≤ sw - tw → q.2 ≤ sh - th →
        compute_ncc src sw (IntegralImage.new src sw sh) (Template.new tpl_data tw th) q.1 q.2
          ≤ v := by
      intro q h1 h2
      by_cases hq : q = p
      · rw [hq]
      · exact le_of_lt (huniq q h1 h2 hq)
    have hregion : (regionBest src sw sh (Template.new tpl_data tw th)
        (refineRect sw sh tw th (scaleFor tw th) coarse.x coarse.y).1
        (refineRect sw sh tw th (scaleFor tw th) coarse.x coarse.y).2.1
        (refineRect sw sh tw th (scaleFor tw th) coarse.x coarse.y).2.2.1
        (refineRect sw sh tw th (scaleFor tw th) coarse.x coarse.y).2.2.2).2.2 ≤ v := by
      unfold regionBest
      refine bestFold_le (fun r hr => ?_) _ (by simpa using hv1)
      obtain ⟨k1, k2, k3, k4⟩ := mem_regionPositions.mp hr
      obtain ⟨j1, j2, j3, j4⟩ := hrect
      exact hall r (by omega) (by omega)
    have hfull : (bestAlignment src sw sh (Template.new tpl_data tw th)).2.2 ≤ v := by
      refine bestAlignment_le (by simpa using hv1) (fun x hx y hy => ?_)
      refine hall (x, y) ?_ ?_
      · rw [show (Template.new tpl_data tw th).width = tw from rfl] at hx
        omega
      · rw [show (Template.new tpl_data tw th).height = th from rfl] at hy
        omega
    unfold search_region search_best
    rw [if_neg (by push_neg; exact lt_of_le_of_lt hregion hth),
        if_neg (by
      rw [show (Template.new tpl_data tw th).width = tw from rfl,
          show (Template.new tpl_data tw th).height = th from rfl]
      omega),
        if_neg (by push_neg; exact lt_of_le_of_lt hfull hth)]

end RustMatch

namespace RustMatch

theorem half64_length : half64.length = 64 * 64 := by
  unfold half64
  simp

theorem half64_sum : half64.sum = 4096 := by
  unfold half64
  rw [sum_map_range]
  rw [show (4096 : ℕ) = 2048 + 2048 from rfl]
  rw [Finset.sum_range_add (fun k => if k < 2048 then (0 : ℚ) else 2) 2048 2048]
  have h1 : ∀ k ∈ Finset.range 2048, (if k < 2048 then (0 : ℚ) else 2) = 0 := by
    intro k hk
    rw [if_pos (Finset.mem_range.mp hk)]
  have h2 : ∀ k ∈ Finset.range 2048, (if 2048 + k < 2048 then (0 : ℚ) else 2) = 2 := by
    intro k hk
    rw [if_neg (by omega)]
  rw [Finset.sum_congr rfl h1, Finset.sum_congr rfl h2]
  simp
  norm_num

theorem half64_sqsum : bufSqSum half64 = 8192 := by
  unfold bufSqSum half64
  rw [List.map_map]
  have hf : ((fun v => v * v) ∘ fun k => if k < 2048 then (0 : ℚ) else 2)
      = fun k => if k < 2048 then (0 : ℚ) else 4 := by
    funext k
    by_cases h : k < 2048 <;> simp [h] <;> norm_num
  rw [hf, sum_map_range]
  rw [show (4096 : ℕ) = 2048 + 2048 from rfl]
  rw [Finset.sum_range_add (fun k => if k < 2048 then (0 : ℚ) else 4) 2048 2048]
  have h1 : ∀ k ∈ Finset.range 2048, (if k < 2048 then (0 : ℚ) else 4) = 0 := by
    intro k hk
    rw [if_pos (Finset.mem_range.mp hk)]
  have h2 : ∀ k ∈ Finset.range 2048, (if 2048 + k < 2048 then (0 : ℚ) else 4) = 4 := by
    intro k hk
    rw [if_neg (by omega)]
  rw [Finset.sum_congr rfl h1, Finset.sum_congr rfl h2]
  simp
  norm_num

theorem half64_var : bufVar half64 64 64 = 1 := by
  unfold bufVar bufMean
  rw [half64_sum, half64_sqsum]
  norm_num

theorem px_half64 {a b : ℕ} (ha : a < 64) (hb : b < 64) :
    px half64 64 a b = if a < 32 then (0 : ℚ) else 2 := by
  unfold px half64
  rw [getD_map_range _ _ (show a * 64 + b < 4096 by omega)]
  by_cases h : a < 32
  · rw [if_pos (by omega), if_pos h]
  · rw [if_neg (by omega), if_neg h]

theorem ds_half64_entry {y x : ℕ} (hy : y < 16) (hx : x < 16) :
    (∑ dy ∈ Finset.range 4, ∑ dx ∈ Finset.range 4,
      px half64 64 (y * 4 + dy) (x * 4 + dx)) / ((4 * 4 : ℕ) : ℚ)
      = if y < 8 then (0 : ℚ) else 2 := by
  have hval : ∀ dy ∈ Finset.range 4, ∀ dx ∈ Finset.range 4,
      px half64 64 (y * 4 + dy) (x * 4 + dx) = if y < 8 then (0 : ℚ) else 2 := by
    intro dy hdy dx hdx
    have hdy' := Finset.mem_range.mp hdy
    have hdx' := Finset.mem_range.mp hdx
    rw [px_half64 (by omega) (by omega)]
    by_cases h : y < 8
    · rw [if_pos (by omega), if_pos h]
    · rw [if_neg (by omega), if_neg h]
  rw [Finset.sum_congr rfl fun dy hdy => Finset.sum_congr rfl fun dx hdx => hval dy hdy dx hdx]
  by_cases h : y < 8 <;> simp [h] <;> norm_num

theorem ds_half64_sum : (downsample half64 64 64 4).1.sum = 256 := by
  unfold downsample
  simp only
  rw [sum_flatMap]
  rw [show (64 : ℕ) / 4 = 16 from rfl, sum_map_range]
  have hrow : ∀ y ∈ Finset.range 16,
      ((List.range 16).map fun x =>
        (∑ dy ∈ Finset.range 4, ∑ dx ∈ Finset.range 4,
          px half64 64 (y * 4 + dy) (x * 4 + dx)) / ((4 * 4 : ℕ) : ℚ)).sum
        = if y < 8 then (0 : ℚ) else 32 := by
    intro y hy
    have hy' := Finset.mem_range.mp hy
    rw [sum_map_range]
    rw [Finset.sum_congr rfl fun x hx => ds_half64_entry hy' (Finset.mem_range.mp hx)]
    by_cases h : y < 8 <;> simp [h] <;> norm_num
  rw [Finset.sum_congr rfl hrow]
  rw [show (16 : ℕ) = 8 + 8 from rfl]
  rw [Finset.sum_range_add (fun y => if y < 8 then (0 : ℚ) else 32) 8 8]
  have h1 : ∀ y ∈ Finset.range 8, (if y < 8 then (0 : ℚ) else 32) = 0 := by
    intro y hy
    rw [if_pos (Finset.mem_range.mp hy)]
  have h2 : ∀ y ∈ Finset.range 8, (if 8 + y < 8 then (0 : ℚ) else 32) = 32 := by
    intro y hy
    rw [if_neg (by omega)]
  rw [Finset.sum_congr rfl h1, Finset.sum_congr rfl h2]
  simp
  norm_num

theorem ds_half64_sqsum : bufSqSum (downsample half64 64 64 4).1 = 512 := by
  unfold bufSqSum downsample
  simp only
  rw [sum_map_flatMap]
  rw [show (64 : ℕ) / 4 = 16 from rfl, sum_map_range]
  have hrow : ∀ y ∈ Finset.range 16,
      (((List.range 16).map fun x =>
        (∑ dy ∈ Finset.range 4, ∑ dx ∈ Finset.range 4,
          px half64 64 (y * 4 + dy) (x * 4 + dx)) / ((4 * 4 : ℕ) : ℚ)).map
            fun v => v * v).sum = if y < 8 then (0 : ℚ) else 64 := by
    intro y hy
    have hy' := Finset.mem_range.mp hy
    rw [List.map_map, sum_map_range]
    have hone : ∀ x ∈ Finset.range 16,
        ((fun v => v * v) ∘ fun x =>
          (∑ dy ∈ Finset.range 4, ∑ dx ∈ Finset.range 4,
            px half64 64 (y * 4 + dy) (x * 4 + dx)) / ((4 * 4 : ℕ) : ℚ)) x
          = if y < 8 then (0 : ℚ) else 4 := by
      intro x hx
      simp only [Function.comp_apply]
      rw [ds_half64_entry hy' (Finset.mem_range.mp hx)]
      by_cases h : y < 8 <;> simp [h] <;> norm_num
    rw [Finset.sum_congr rfl hone]
    by_cases h : y < 8 <;> simp [h] <;> norm_num
  rw [Finset.sum_congr rfl hrow]
  rw [show (16 : ℕ) = 8 + 8 from rfl]
  rw [Finset.sum_range_add (fun y => if y < 8 then (0 : ℚ) else 64) 8 8]
  have h1 : ∀ y ∈ Finset.range 8, (if y < 8 then (0 : ℚ) else 64) = 0 := by
    intro y hy
    rw [if_pos (Finset.mem_range.mp hy)]
  have h2 : ∀ y ∈ Finset.range 8, (if 8 + y < 8 then (0 : ℚ) else 64) = 64 := by
    intro y hy
    rw [if_neg (by omega)]
  rw [Finset.sum_congr rfl h1, Finset.sum_congr rfl h2]
  simp
  norm_num

theorem ds_half64_var : bufVar (downsample half64 64 64 4).1 16 16 = 1 := by
  unfold bufVar bufMean
  rw [ds_half64_sum, ds_half64_sqsum]
  norm_num

end RustMatch

namespace RustMatch

theorem C3_pyramid_full_agree_witness :
    (half64.length = 64 * 64 ∧ 64 ≤ min 64 64 ∧
      search_best (downsample half64 64 64 (scaleFor 64 64)).1
        (64 / scaleFor 64 64) (64 / scaleFor 64 64)
        (Template.new (downsample half64 64 64 (scaleFor 64 64)).1
          (64 / scaleFor 64 64) (64 / scaleFor 64 64)) ((1/2 : ℝ) * 0.5)
        = some ⟨0, 0, 1⟩) ∧
    pyramid_match half64 64 64 half64 64 64 (1/2)
      = search_best half64 64 64 (Template.new half64 64 64) (1/2) := by
  have hcoarse : search_best (downsample half64 64 64 (scaleFor 64 64)).1
      (64 / scaleFor 64 64) (64 / scaleFor 64 64)
      (Template.new (downsample half64 64 64 (scaleFor 64 64)).1
        (64 / scaleFor 64 64) (64 / scaleFor 64 64)) ((1/2 : ℝ) * 0.5)
      = some ⟨0, 0, 1⟩ := by
    rw [show scaleFor 64 64 = 4 from by decide]
    exact search_best_self (downsample half64 64 64 4).1 (64 / 4) (64 / 4) ((1/2 : ℝ) * 0.5)
      (downsample_length half64 64 64 4) (le_of_eq ds_half64_var.symm) (by norm_num)
  refine ⟨⟨half64_length, by norm_num, hcoarse⟩, ?_⟩
  refine C3_pyramid_full_agree half64 half64 64 64 64 64 ⟨0, 0, 1⟩ (0, 0)
    half64_length half64_length (by norm_num) (by norm_num) (by norm_num)
    hcoarse ⟨by norm_num, by norm_num⟩ ⟨?_, Nat.zero_le _, ?_, Nat.zero_le _⟩ ?_
  · simp [refineRect]
  · simp [refineRect]
  · intro q h1 h2 hq
    exfalso
    apply hq
    rcases q with ⟨a, b⟩
    simp at h1 h2 ⊢
    omega

end RustMatch
